import Mathlib

/-!
Shallow embedding of the population-weighting and semantic-scoring core of
the llm-consumer-research repository (`src/ssr_service`), together with
theorems settling the specification claims about it.

Conventions of the embedding:
* Python floats are modelled by exact rationals (`ℚ`) for the weight /
  allocation arithmetic, and by real numbers (`ℝ`) for the embedding-space
  cosine-similarity pipeline (which involves square roots).
* Python dicts that preserve insertion order are modelled by association
  lists in insertion order.
* Functions that can raise `ValueError` return `Except String`.
* `model_copy(deep=True)` is the identity on immutable Lean values; the
  heap model at the end of the file makes the copying of `rake_personas`
  explicit in order to reason about non-mutation of inputs.
-/

/-- Persona record (models `PersonaSpec` of `models.py`): only the fields the
weighting pipeline reads are kept — the name (dict key for blending), the
weight, and the categorical attributes accessed by field name during raking
(`attrs` models `getattr(persona, field)` for string-valued fields; a field
that is absent, `None`, or list-valued in Python is simply absent here). -/
structure PersonaSpec where
  name : String
  weight : ℚ
  attrs : List (String × String)
deriving Repr, DecidableEq

/-- Sum of clamped weights `sum(max(p.weight, 0.0) for p in ps)`. -/
def wsum (ps : List PersonaSpec) : ℚ :=
  (ps.map (fun p => max p.weight 0)).sum

/-- Raw (unclamped) sum of weights. -/
def weightSum (ps : List PersonaSpec) : ℚ :=
  (ps.map (fun p => p.weight)).sum

/-- Model of `ensure_weights` from `personas.py`: if clamped weights sum to ≤ 0,
distribute `target_total` equally; if `target_total ≤ 0`, zero everything;
otherwise clamp negatives to 0 and rescale so the total is `target_total`. -/
def ensure_weights (personas : List PersonaSpec) (target_total : ℚ) :
    List PersonaSpec :=
  let total := wsum personas
  if total ≤ 0 then
    if personas.length = 0 then personas
    else
      let equal := target_total / (max personas.length 1 : ℚ)
      personas.map (fun p => { p with weight := equal })
  else if target_total ≤ 0 then
    personas.map (fun p => { p with weight := 0 })
  else
    let scale := target_total / total
    personas.map (fun p => { p with weight := max p.weight 0 * scale })

/-- Helper for `likert_metrics`: Python's `max(rating_list)` on a non-empty list. -/
def listMax (l : List ℤ) : ℤ := l.foldl max (l.headD 0)

/-- Model of `likert_metrics` from `ssr.py`: mean is `np.dot(pmf, ratings)` and
top-2-box sums the pmf entries whose rating is `≥ max(ratings) - 1`. -/
def likert_metrics (pmf : List ℚ) (ratings : List ℤ) : ℚ × ℚ :=
  let mean := (List.zipWith (fun (p : ℚ) (r : ℤ) => p * (r : ℚ)) pmf ratings).sum
  let top2 :=
    (((pmf.zip ratings).filter (fun pr => listMax ratings - 1 ≤ pr.2)).map
      Prod.fst).sum
  (mean, top2)

/-- A composition bucket `(personas, weight_share)` as in `personas.py`. -/
abbrev PersonaBucket := List PersonaSpec × Option ℚ

/-- One step of the inner `_accumulate` of `combine_persona_buckets`:
insert one persona into the combined insertion-ordered map keyed by name,
merging weight on a name collision. -/
def _acc_step (acc : List PersonaSpec) (persona : PersonaSpec) :
    List PersonaSpec :=
  if acc.any (fun q => q.name = persona.name) then
    acc.map (fun q =>
      if q.name = persona.name then
        { q with weight := q.weight + persona.weight }
      else q)
  else acc ++ [persona]

/-- The inner `_accumulate` of `combine_persona_buckets`: fold a persona list
into the combined map. -/
def _accumulate (combined : List PersonaSpec) (persona_list : List PersonaSpec) :
    List PersonaSpec :=
  persona_list.foldl _acc_step combined

/-- Sum of the explicit shares of the buckets whose share is not `None`. -/
def _specified_total (bs : List PersonaBucket) : ℚ :=
  ((bs.filter (fun b => b.2.isSome)).map (fun b => b.2.getD 0)).sum

/-- First accumulation pass of `combine_persona_buckets`: each bucket with an
explicit share is renormalised to that share (empty buckets skipped) and
accumulated into the combined map, in order. -/
def _spec_phase (bs : List PersonaBucket) : List PersonaSpec :=
  (bs.filter (fun b => b.2.isSome)).foldl
    (fun acc b =>
      if b.1 = [] then acc
      else _accumulate acc (ensure_weights b.1 (b.2.getD 0)))
    []

/-- Second accumulation pass of `combine_persona_buckets`: buckets without a
share split `remaining = max (1 - specified_total) 0` proportionally to their
raw clamped weight sums; if no share or no raw weight remains they are
dropped. -/
def _unspec_phase (bs : List PersonaBucket) (acc0 : List PersonaSpec) :
    List PersonaSpec :=
  let unspecified := bs.filter (fun b => b.2.isNone)
  if unspecified = [] then acc0
  else
    let remaining := max (1 - _specified_total bs) 0
    let raw_total := (unspecified.map (fun b => wsum b.1)).sum
    if 0 < remaining ∧ 0 < raw_total then
      unspecified.foldl
        (fun acc b =>
          let bucket_weight := wsum b.1
          let share :=
            if bucket_weight ≠ 0 then remaining * (bucket_weight / raw_total)
            else 0
          _accumulate acc (ensure_weights b.1 share))
        acc0
    else acc0

/-- Model of `combine_persona_buckets` from `personas.py`: raise when explicit shares
exceed `1.0 + 1e-6`, run both accumulation passes, then rescale the whole
combined population to total weight 1 (skipped when the clamped total is
not positive). -/
def combine_persona_buckets (bs : List PersonaBucket) :
    Except String (List PersonaSpec) :=
  if 1 + 1 / 1000000 < _specified_total bs then
    .error "Persona weight shares exceed 1.0; adjust weight_share values to fit."
  else if wsum (_unspec_phase bs (_spec_phase bs)) ≤ 0 then
    .ok (_unspec_phase bs (_spec_phase bs))
  else
    .ok ((_unspec_phase bs (_spec_phase bs)).map (fun p =>
      { p with weight := max p.weight 0 *
          (1 / wsum (_unspec_phase bs (_spec_phase bs))) }))

/-- Raking configuration (models `RakingConfig` of `models.py`). -/
structure RakingConfig where
  enabled : Bool
  mode : String
  iterations : Nat
deriving Repr, DecidableEq

/-- Kernel-computable model of Python's `str.strip()` (strip leading and
trailing whitespace), working on the underlying character list. -/
def strTrim (s : String) : String :=
  ⟨((s.data.dropWhile Char.isWhitespace).reverse.dropWhile
      Char.isWhitespace).reverse⟩

/-- Model of `_category_value` from `population.py`: read the string-valued
attribute `field` of a persona; absent attributes (covering Python's missing
attribute, `None`, and list values) yield `none`, and the value is stripped,
with an empty result treated as absent. -/
def _category_value (persona : PersonaSpec) (field : String) : Option String :=
  match persona.attrs.find? (fun kv => kv.1 = field) with
  | none => none
  | some kv => if strTrim kv.2 = "" then none else some (strTrim kv.2)

/-- Shared renormalisation step of `rake_personas`:
`total = sum(max(w, 0)) or 1.0` then `w := max(w, 0) / total`. -/
def _normalize_weights (ps : List PersonaSpec) : List PersonaSpec :=
  let total := if wsum ps = 0 then 1 else wsum ps
  ps.map (fun p => { p with weight := max p.weight 0 / total })

/-- Weight mass of the personas carrying category `cat` for `field`
(the `current_totals[category]` accumulator of `rake_personas`). -/
def currentTotal (ps : List PersonaSpec) (field cat : String) : ℚ :=
  ((ps.filter (fun p => _category_value p field = some cat)).map
    (fun p => p.weight)).sum

/-- Weight mass of all personas carrying any value for `field`
(the `field_total` accumulator of `rake_personas`). -/
def fieldTotal (ps : List PersonaSpec) (field : String) : ℚ :=
  ((ps.filter (fun p => (_category_value p field).isSome)).map
    (fun p => p.weight)).sum

/-- Distinct category values observed for `field` across the population,
in first-occurrence order (the key set of `current_totals`). -/
def fieldCats (ps : List PersonaSpec) (field : String) : List String :=
  (ps.filterMap (fun p => _category_value p field)).dedup

/-- Lookup in a marginal-target association list: `buckets.get(cat, 0.0)`. -/
def bucketGet (buckets : List (String × ℚ)) (cat : String) : ℚ :=
  ((buckets.find? (fun bw => bw.1 = cat)).map Prod.snd).getD 0

/-- Weight-multiplication loop at the end of a field pass: each persona
carrying a category for `field` has its weight multiplied by
`adjustments.get(category, 1.0)`, here the multiplier function `m`. -/
def applyAdjustments (ps : List PersonaSpec) (field : String)
    (m : String → ℚ) : List PersonaSpec :=
  ps.map (fun p =>
    match _category_value p field with
    | none => p
    | some cat => { p with weight := p.weight * m cat })

/-- One field pass of the `rake_personas` loop: compute per-category mass,
skip degenerate fields, raise in strict mode on a required category with no
carriers, multiply each categorised persona's weight by its adjustment
factor, and renormalise. The inner `current_share <= 0` strict raise of the
source is modelled too, although no present category can trigger it. -/
def rakeField (ps : List PersonaSpec) (field : String)
    (buckets : List (String × ℚ)) (mode : String) :
    Except String (List PersonaSpec) :=
  let ft := fieldTotal ps field
  if ft ≤ 0 then .ok ps
  else
    let present := (fieldCats ps field).filter (fun c => 0 < currentTotal ps field c)
    if present = [] then .ok ps
    else
      let missing := buckets.filter (fun bw => 0 < bw.2 ∧ bw.1 ∉ present)
      if missing ≠ [] ∧ mode = "strict" then
        .error "Raking failed: field missing categories"
      else
        let target_sum := (present.map (bucketGet buckets)).sum
        if target_sum ≤ 0 then .ok ps
        else if mode = "strict" ∧ present.any (fun c =>
            decide (currentTotal ps field c / ft ≤ 0) &&
            decide (0 < bucketGet buckets c / target_sum)) then
          .error "Raking failed: category has no personas"
        else
          let adj := fun c =>
            if currentTotal ps field c / ft ≤ 0 then 1
            else (bucketGet buckets c / target_sum) / (currentTotal ps field c / ft)
          let ps2 := applyAdjustments ps field
            (fun cat => if cat ∈ present then adj cat else 1)
          .ok (_normalize_weights ps2)

/-- One full sweep over all targeted fields, in order. -/
def rakeFields (ps : List PersonaSpec)
    (marginals : List (String × List (String × ℚ))) (mode : String) :
    Except String (List PersonaSpec) :=
  marginals.foldlM (fun acc fb => rakeField acc fb.1 fb.2 mode) ps

/-- Model of `rake_personas` from `population.py` (weight arithmetic on the
deep-copied personas; the heap model below accounts for the copying itself).
Marginals are an insertion-ordered association list `field -> targets`. -/
def rake_personas (personas : List PersonaSpec)
    (marginals : List (String × List (String × ℚ))) (config : RakingConfig) :
    Except String (List PersonaSpec) :=
  if marginals = [] ∨ config.enabled = false then
    .ok (_normalize_weights personas)
  else
    match (List.range config.iterations).foldlM
        (fun acc _ => rakeFields acc marginals config.mode)
        (_normalize_weights personas) with
    | .error e => .error e
    | .ok psN => .ok (_normalize_weights psN)

/-- Simulation options (the fields `_allocate_draws` reads from
`SimulationOptions` of `models.py`). -/
structure SimulationOptions where
  n : Nat
  total_n : Option Nat
  stratified : Bool
deriving Repr, DecidableEq

/-- Negative-remainder loop of `_allocate_draws`: walk the indices in
ascending fractional order, repeatedly decrementing the current candidate
while it stays above the minimum of 1, until the remainder is repaid or the
candidates are exhausted. -/
def removeLoop (base : List ℤ) (order : List Nat) (remainder : ℤ) (idx : Nat) :
    List ℤ :=
  if h : remainder < 0 ∧ idx < order.length then
    let cand := order.get ⟨idx, h.2⟩
    if 1 < base.getD cand 0 then
      removeLoop (base.set cand (base.getD cand 0 - 1)) order (remainder + 1) idx
    else
      removeLoop base order remainder (idx + 1)
  else base
termination_by (order.length - idx) + (-remainder).toNat
decreasing_by
  · omega
  · omega

/-- Normalised weight vector of `_allocate_draws`: the personas' weights
rescaled to sum 1, or the uniform vector when they sum to zero. -/
def _alloc_weights (ps : List PersonaSpec) : List ℚ :=
  if (ps.map (fun p => p.weight)).sum = 0 then
    List.replicate ps.length ((1 : ℚ) / ps.length)
  else (ps.map (fun p => p.weight)).map
    (fun w => w / (ps.map (fun p => p.weight)).sum)

/-- The `raw = weights * total` vector of `_allocate_draws`. -/
def _alloc_raw (ps : List PersonaSpec) (total : Nat) : List ℚ :=
  (_alloc_weights ps).map (fun w => w * (total : ℚ))

/-- The floored and minimum-1-clamped base allocation of `_allocate_draws`. -/
def _alloc_base (ps : List PersonaSpec) (total : Nat) : List ℤ :=
  (_alloc_raw ps total).map (fun x => max (Int.floor x) 1)

/-- The fractional parts `raw - floor(raw)` of `_allocate_draws`. -/
def _alloc_fractional (ps : List PersonaSpec) (total : Nat) : List ℚ :=
  (_alloc_raw ps total).map (fun x => x - (Int.floor x : ℚ))

/-- Model of `_allocate_draws` from `orchestrator.py`. Weights are taken
from the personas, normalised (uniform when they sum to zero), multiplied by
the requested total, floored, clamped to a minimum of one draw each, and the
integer remainder is settled by largest-remainder apportionment (ties between
equal fractional parts are resolved by `np.argsort`'s unspecified order;
the model uses a stable sort). -/
def _allocate_draws (personas : List PersonaSpec) (options : SimulationOptions) :
    List ℤ :=
  if personas = [] then []
  else
    match (if options.total_n.getD 0 ≠ 0 then some (options.total_n.getD 0)
           else if options.stratified then some options.n
           else none : Option Nat) with
    | none => List.replicate personas.length (options.n : ℤ)
    | some total =>
      if 0 < (total : ℤ) - (_alloc_base personas total).sum then
        ((List.insertionSort
            (fun a b => (_alloc_fractional personas total).getD b 0 ≤
              (_alloc_fractional personas total).getD a 0)
            (List.range personas.length)).take
          ((total : ℤ) - (_alloc_base personas total).sum).toNat).foldl
          (fun acc i => acc.set i (acc.getD i 0 + 1)) (_alloc_base personas total)
      else if (total : ℤ) - (_alloc_base personas total).sum < 0 then
        removeLoop (_alloc_base personas total)
          (List.insertionSort
            (fun a b => (_alloc_fractional personas total).getD a 0 ≤
              (_alloc_fractional personas total).getD b 0)
            (List.range personas.length))
          ((total : ℤ) - (_alloc_base personas total).sum) 0
      else _alloc_base personas total

/-- Anchor set (models `AnchorSet` of `anchors.py`): an insertion-ordered
mapping from integer rating to anchor statement. -/
structure AnchorSetL where
  id : String
  anchors : List (ℤ × String)
deriving Repr, DecidableEq

/-- Anchor bank (models `AnchorBank` of `anchors.py`). -/
structure AnchorBankL where
  version : String
  intent : String
  locale : String
  anchor_sets : List AnchorSetL
deriving Repr, DecidableEq

/-- Model of `AnchorSet.sorted_items`: anchors sorted ascending by rating
(Python `sorted` is stable; keys are distinct dict keys). -/
def sorted_items (a : AnchorSetL) : List (ℤ × String) :=
  List.insertionSort (fun x y => x.1 ≤ y.1) a.anchors

/-- Model of `AnchorBank.ratings` from `anchors.py`: the *sorted* rating keys
of the first anchor set. -/
def bankRatings (bank : AnchorBankL) : List ℤ :=
  List.insertionSort (fun x y => x ≤ y)
    ((bank.anchor_sets.headD ⟨"", []⟩).anchors.map Prod.fst)

/-- Model of `SemanticSimilarityRater.ratings` (the `_ratings` field set in
`SemanticSimilarityRater.__init__` of `ssr.py`):
`list(self.bank.anchor_sets[0].anchors.keys())`, i.e. the rating keys of the
first anchor set in dict insertion order — *not* sorted. -/
def ssrRatings (bank : AnchorBankL) : List ℤ :=
  (bank.anchor_sets.headD ⟨"", []⟩).anchors.map Prod.fst

/-- Dot product of two real vectors (`mat @ vec` rowwise / `np.dot`). -/
def rdot (v w : List ℝ) : ℝ := (List.zipWith (fun a b => a * b) v w).sum

/-- Euclidean norm `np.linalg.norm`. -/
noncomputable def l2norm (v : List ℝ) : ℝ :=
  Real.sqrt ((v.map (fun x => x * x)).sum)

/-- Model of `_cosine_similarity` from `ssr.py`: all-zero vector when the
input has zero norm (no error, since `np.zeros(mat.shape[0])` works on the
1-D empty matrix too); otherwise `np.linalg.norm(mat, axis=1)` raises
`AxisError` on an empty matrix (`embed_texts([])` returns the 1-D
`np.empty((0,))`), and on a non-empty matrix the result is the rowwise dot
products divided by the product of norms clipped below at `1e-8`. -/
noncomputable def _cosine_similarity (vec : List ℝ) (mat : List (List ℝ)) :
    Except String (List ℝ) :=
  if l2norm vec = 0 then .ok (mat.map (fun _ => 0))
  else if mat = [] then
    .error "numpy.AxisError: axis 1 is out of bounds for array of dimension 1"
  else
    .ok (mat.map (fun row =>
      rdot row vec / max (l2norm vec * l2norm row) (1 / 100000000)))

/-- Per-anchor-set pmf inside `score_text`: compute the cosine similarities
(which can raise on an empty anchor matrix), floor them at 0, add epsilon,
normalise to sum 1. -/
noncomputable def score_set (text_vec : List ℝ) (M : List (List ℝ)) (ε : ℝ) :
    Except String (List ℝ) :=
  match _cosine_similarity text_vec M with
  | .error e => .error e
  | .ok sims0 =>
    let sims := sims0.map (fun s => max s 0 + ε)
    .ok (sims.map (fun s => s / sims.sum))

/-- Model of `SemanticSimilarityRater._embed_anchors`: one embedding matrix
per anchor set, rows in sorted-rating order, via the external embedding
provider `embed`. -/
noncomputable def _embed_anchors (embed : String → List ℝ) (bank : AnchorBankL) :
    List (List (List ℝ)) :=
  bank.anchor_sets.map (fun aset => (sorted_items aset).map (fun it => embed it.2))

/-- Elementwise column mean of a stack of rows of common length `k`
(`np.vstack(...).mean(axis=0)`). -/
noncomputable def colMean (rows : List (List ℝ)) (k : Nat) : List ℝ :=
  (List.range k).map (fun j => ((rows.map (fun r => r.getD j 0)).sum) / rows.length)

/-- The `for embed in self._embedded_sets` loop of `score_text`: one pmf per
anchor set, stopping at the first raised error. -/
noncomputable def score_sets (text_vec : List ℝ) (ε : ℝ) :
    List (List (List ℝ)) → Except String (List (List ℝ))
  | [] => .ok []
  | M :: Ms =>
    match score_set text_vec M ε with
    | .error e => .error e
    | .ok pmf =>
      match score_sets text_vec ε Ms with
      | .error e => .error e
      | .ok rest => .ok (pmf :: rest)

/-- Model of `SemanticSimilarityRater.score_text` from `ssr.py`: embed the
text, score it against every anchor-set matrix (propagating a raised
`AxisError`), average the per-set pmfs elementwise and renormalise. The
column count is the rating count, which by the load-time invariant is the
common row count of the matrices. -/
noncomputable def score_text (embed : String → List ℝ) (bank : AnchorBankL)
    (ε : ℝ) (text : String) : Except String (List ℝ) :=
  match score_sets (embed text) ε (_embed_anchors embed bank) with
  | .error e => .error e
  | .ok per_set =>
    let stacked := colMean per_set (ssrRatings bank).length
    .ok (stacked.map (fun x => x / stacked.sum))

/-- Default persona used to read out-of-range heap cells in the heap model. -/
def defaultPersona : PersonaSpec := ⟨"", 0, []⟩

/-- Error-path state tracker for the heap model: run the field sweeps like
`rakeFields` but, on the first raise, keep the copies' state as it was when
the exception left the loop (no weight of the erroring pass has been applied
yet, since both raises happen before the multiplication loop). -/
def rakeFieldsP (ps : List PersonaSpec)
    (marginals : List (String × List (String × ℚ))) (mode : String) :
    List PersonaSpec × Option String :=
  match marginals with
  | [] => (ps, none)
  | fb :: rest =>
    match rakeField ps fb.1 fb.2 mode with
    | .error e => (ps, some e)
    | .ok ps2 => rakeFieldsP ps2 rest mode

/-- Iterated version of `rakeFieldsP` over the configured iteration count. -/
def rakeIterP (ps : List PersonaSpec)
    (marginals : List (String × List (String × ℚ))) (mode : String) :
    Nat → List PersonaSpec × Option String
  | 0 => (ps, none)
  | Nat.succ n =>
    match rakeFieldsP ps marginals mode with
    | (st, some e) => (st, some e)
    | (st, none) => rakeIterP st marginals mode n

/-- Heap model of `rake_personas`, making the aliasing discipline of the
source explicit: the heap is the store of persona objects, the inputs are
references into it, and the very first statement
`personas_list = [p.model_copy(deep=True) for p in personas]` allocates
fresh cells at the end of the heap. Every subsequent weight mutation of the
source targets those fresh cells only, so the final heap is the input heap
extended with the copies' final state — on the error path, with their state
at raise time. The function returns the post-call heap together with either
the references of the result list or the raised error. -/
def rake_personasH (heap : List PersonaSpec) (refs : List Nat)
    (marginals : List (String × List (String × ℚ))) (config : RakingConfig) :
    List PersonaSpec × Except String (List Nat) :=
  let copies := refs.map (fun r => heap.getD r defaultPersona)
  if marginals = [] ∨ config.enabled = false then
    let out := _normalize_weights copies
    (heap ++ out, .ok (List.range' heap.length out.length))
  else
    match rakeIterP (_normalize_weights copies) marginals config.mode
        config.iterations with
    | (st, some e) => (heap ++ st, .error e)
    | (st, none) =>
      let out := _normalize_weights st
      (heap ++ out, .ok (List.range' heap.length out.length))

lemma zip_map_sum_eq (g : ℚ × ℤ → ℚ) :
    ∀ (l1 : List ℚ) (l2 : List ℤ),
      ((l1.zip l2).map g).sum =
        (Finset.range (min l1.length l2.length)).sum
          (fun j => g (l1.getD j 0, l2.getD j 0))
  | [], l2 => by simp
  | p :: l1, [] => by simp
  | p :: l1, r :: l2 => by
    have ih := zip_map_sum_eq g l1 l2
    simp only [List.zip_cons_cons, List.map_cons, List.sum_cons, List.length_cons]
    rw [Nat.succ_min_succ, Finset.sum_range_succ', ih]
    simp [add_comm]

lemma filter_map_sum_eq (p : ℚ × ℤ → Prop) [DecidablePred p] :
    ∀ (l : List (ℚ × ℤ)),
      ((l.filter (fun x => p x)).map Prod.fst).sum =
        (l.map (fun x => if p x then x.1 else 0)).sum
  | [] => by simp
  | x :: l => by
    have ih := filter_map_sum_eq p l
    by_cases hx : p x
    · simp [List.filter_cons, hx, ih]
    · simp [List.filter_cons, hx, ih]

lemma zipWith_mul_eq_zip_map (l1 : List ℚ) (l2 : List ℤ) :
    List.zipWith (fun (p : ℚ) (r : ℤ) => p * (r : ℚ)) l1 l2 =
      (l1.zip l2).map (fun x => x.1 * (x.2 : ℚ)) := by
  induction l1 generalizing l2 with
  | nil => simp
  | cons a l1 ih =>
    cases l2 with
    | nil => simp
    | cons b l2 => simp [ih]

/-- C7: `likert_metrics(pmf, ratings)` returns mean equal to the dot product
of the pmf with the rating values and top2box equal to the pmf mass on
ratings `≥ max(ratings) - 1`; in particular for pmf `[0.1,0.2,0.3,0.4]` over
ratings `[1,2,3,4]` the mean is `3.0` and top2box is `0.7`. -/
theorem C7_likert_metrics :
    (∀ (pmf : List ℚ) (ratings : List ℤ),
      (likert_metrics pmf ratings).1 =
        (Finset.range (min pmf.length ratings.length)).sum
          (fun j => pmf.getD j 0 * ((ratings.getD j 0 : ℤ) : ℚ))) ∧
    (∀ (pmf : List ℚ) (ratings : List ℤ),
      (likert_metrics pmf ratings).2 =
        (Finset.range (min pmf.length ratings.length)).sum
          (fun j => if listMax ratings - 1 ≤ ratings.getD j 0
                    then pmf.getD j 0 else 0)) ∧
    likert_metrics [1/10, 2/10, 3/10, 4/10] [1, 2, 3, 4] = (3, 7/10) := by
  refine ⟨?_, ?_, by norm_num [likert_metrics, listMax, List.filter]⟩
  · intro pmf ratings
    show (List.zipWith (fun (p : ℚ) (r : ℤ) => p * (r : ℚ)) pmf ratings).sum = _
    rw [zipWith_mul_eq_zip_map, zip_map_sum_eq (fun x => x.1 * (x.2 : ℚ))]
  · intro pmf ratings
    show (((pmf.zip ratings).filter
        (fun pr => listMax ratings - 1 ≤ pr.2)).map Prod.fst).sum = _
    rw [filter_map_sum_eq (fun pr => listMax ratings - 1 ≤ pr.2),
      zip_map_sum_eq (fun x => if listMax ratings - 1 ≤ x.2 then x.1 else 0)]

/-- C6: `combine_persona_buckets` raises its validation error whenever the
explicit shares sum to more than `1.0 + 1e-6`, before accumulating any
personas. -/
theorem C6_share_overflow_raises (bs : List PersonaBucket)
    (h : 1 + 1 / 1000000 < _specified_total bs) :
    combine_persona_buckets bs =
      .error "Persona weight shares exceed 1.0; adjust weight_share values to fit." := by
  unfold combine_persona_buckets
  rw [if_pos h]

theorem C6_share_overflow_raises_witness :
    1 + 1 / 1000000 < _specified_total [([defaultPersona], some 2)] ∧
    combine_persona_buckets [([defaultPersona], some 2)] =
      .error "Persona weight shares exceed 1.0; adjust weight_share values to fit." :=
  ⟨by norm_num [_specified_total, defaultPersona],
   C6_share_overflow_raises _ (by norm_num [_specified_total, defaultPersona])⟩

lemma wsum_nil : wsum [] = 0 := rfl

lemma wsum_cons (p : PersonaSpec) (l : List PersonaSpec) :
    wsum (p :: l) = max p.weight 0 + wsum l := by
  simp [wsum]

lemma weightSum_nil : weightSum [] = 0 := rfl

lemma weightSum_cons (p : PersonaSpec) (l : List PersonaSpec) :
    weightSum (p :: l) = p.weight + weightSum l := by
  simp [weightSum]

lemma wsum_nonneg (ps : List PersonaSpec) : 0 ≤ wsum ps := by
  induction ps with
  | nil => simp [wsum_nil]
  | cons p l ih => rw [wsum_cons]; positivity

lemma ensure_weights_nil (t : ℚ) : ensure_weights [] t = [] := by
  simp [ensure_weights]

lemma ensure_weights_of_nonpos (ps : List PersonaSpec) (t : ℚ)
    (h : wsum ps ≤ 0) (hne : ps ≠ []) :
    ensure_weights ps t =
      ps.map (fun p => { p with weight := t / (ps.length : ℚ) }) := by
  have hlen : ps.length ≠ 0 := by simpa [List.length_eq_zero] using hne
  have hmax : max ((ps.length : ℚ)) 1 = (ps.length : ℚ) :=
    max_eq_left (by exact_mod_cast Nat.one_le_iff_ne_zero.mpr hlen)
  simp only [ensure_weights, if_pos h, if_neg hlen, hmax]

lemma ensure_weights_of_pos_zero (ps : List PersonaSpec) (t : ℚ)
    (h : ¬ wsum ps ≤ 0) (ht : t ≤ 0) :
    ensure_weights ps t = ps.map (fun p => { p with weight := 0 }) := by
  simp only [ensure_weights, if_neg h, if_pos ht]

lemma ensure_weights_of_pos_pos (ps : List PersonaSpec) (t : ℚ)
    (h : ¬ wsum ps ≤ 0) (ht : ¬ t ≤ 0) :
    ensure_weights ps t =
      ps.map (fun p => { p with weight := max p.weight 0 * (t / wsum ps) }) := by
  simp only [ensure_weights, if_neg h, if_neg ht]

lemma wsum_map_const (ps : List PersonaSpec) (c : ℚ) :
    wsum (ps.map (fun p => { p with weight := c })) = ps.length * max c 0 := by
  induction ps with
  | nil => simp [wsum_nil]
  | cons p l ih =>
    simp only [List.map_cons, wsum_cons, ih, List.length_cons]
    push_cast
    ring

lemma wsum_map_clamp_scale (ps : List PersonaSpec) (s : ℚ) (hs : 0 ≤ s) :
    wsum (ps.map (fun p => { p with weight := max p.weight 0 * s })) =
      wsum ps * s := by
  induction ps with
  | nil => simp [wsum_nil]
  | cons p l ih =>
    simp only [List.map_cons, wsum_cons, ih]
    have hnn : 0 ≤ max p.weight 0 * s :=
      mul_nonneg (le_max_right _ _) hs
    rw [max_eq_left hnn]
    ring

/-- C8 (counterexample): `ensure_weights` is not idempotent for every
`target_total` — with one persona of weight 1 and `target_total = -1`, one
application yields weight 0 but a second application yields weight `-1`. -/
theorem C8_ensure_weights_idempotent_cex :
    ensure_weights (ensure_weights [⟨"a", 1, []⟩] (-1)) (-1) ≠
      ensure_weights [⟨"a", 1, []⟩] (-1) := by
  have h1 : ensure_weights [⟨"a", 1, []⟩] (-1) =
      [⟨"a", 0, []⟩] := by
    rw [ensure_weights_of_pos_zero _ _ (by norm_num [wsum]) (by norm_num)]
    simp
  have h2 : ensure_weights [(⟨"a", 0, []⟩ : PersonaSpec)] (-1) =
      [⟨"a", -1, []⟩] := by
    rw [ensure_weights_of_nonpos _ _ (by norm_num [wsum]) (by simp)]
    norm_num
  rw [h1, h2]
  intro hEq
  have : (-1 : ℚ) = 0 := congrArg PersonaSpec.weight (List.head_eq_of_cons_eq hEq)
  norm_num at this

/-- C8 (amended): `ensure_weights` is idempotent for every persona list and
every non-negative `target_total`: applying it twice with the same
`target_total` returns the same list as applying it once. (For a negative
`target_total` and a positive starting total idempotence fails, see the
counterexample.) -/
theorem C8_ensure_weights_idempotent (ps : List PersonaSpec) (t : ℚ)
    (ht : 0 ≤ t) :
    ensure_weights (ensure_weights ps t) t = ensure_weights ps t := by
  rcases eq_or_ne ps [] with rfl | hne
  · simp [ensure_weights_nil]
  have hlen : ps.length ≠ 0 := by simpa [List.length_eq_zero] using hne
  have hlenQ : (0 : ℚ) < (ps.length : ℚ) := by
    exact_mod_cast Nat.pos_of_ne_zero hlen
  by_cases hW : wsum ps ≤ 0
  · rw [ensure_weights_of_nonpos ps t hW hne]
    rcases eq_or_lt_of_le ht with ht0 | htpos
    · -- t = 0: both applications set every weight to 0
      have heq0 : t / (ps.length : ℚ) = 0 := by rw [ht0.symm]; simp
      have hW2 : wsum (ps.map (fun p => { p with weight := t / (ps.length : ℚ) })) ≤ 0 := by
        rw [wsum_map_const, heq0]
        simp
      have hne2 : ps.map (fun p => { p with weight := t / (ps.length : ℚ) }) ≠ [] := by
        simpa using hne
      rw [ensure_weights_of_nonpos _ t hW2 hne2, List.map_map, List.length_map]
      refine congrArg (fun f => List.map f ps) (funext fun p => ?_)
      simp [heq0]
    · -- 0 < t: the second pass rescales by t / t = 1
      have heq : t / (ps.length : ℚ) = t / (ps.length : ℚ) := rfl
      have hpos : 0 < t / (ps.length : ℚ) := div_pos htpos hlenQ
      have hW2 : wsum (ps.map (fun p => { p with weight := t / (ps.length : ℚ) })) = t := by
        rw [wsum_map_const, max_eq_left hpos.le]
        field_simp
      have hW2' : ¬ wsum (ps.map (fun p => { p with weight := t / (ps.length : ℚ) })) ≤ 0 := by
        rw [hW2]; exact not_le.mpr htpos
      rw [ensure_weights_of_pos_pos _ t hW2' (not_le.mpr htpos), hW2, List.map_map]
      refine congrArg (fun f => List.map f ps) (funext fun p => ?_)
      have : t / t = 1 := div_self htpos.ne'
      simp [this, max_eq_left hpos.le]
  · rcases eq_or_lt_of_le ht with ht0 | htpos
    · -- t = 0: first pass zeroes all weights, second distributes 0 equally
      subst ht0
      rw [ensure_weights_of_pos_zero ps 0 hW le_rfl]
      have hW2 : wsum (ps.map (fun p => { p with weight := (0 : ℚ) })) ≤ 0 := by
        rw [wsum_map_const]
        simp
      have hne2 : ps.map (fun p => { p with weight := (0 : ℚ) }) ≠ [] := by
        simpa using hne
      rw [ensure_weights_of_nonpos _ 0 hW2 hne2, List.map_map, List.length_map]
      refine congrArg (fun f => List.map f ps) (funext fun p => ?_)
      simp
    · -- 0 < t: first pass hits total t, so the second rescales by 1
      rw [ensure_weights_of_pos_pos ps t hW (not_le.mpr htpos)]
      have hWpos : 0 < wsum ps := lt_of_not_le hW
      have hsnn : 0 ≤ t / wsum ps := div_nonneg ht hWpos.le
      have hW2 : wsum (ps.map (fun p => { p with weight := max p.weight 0 * (t / wsum ps) })) = t := by
        rw [wsum_map_clamp_scale _ _ hsnn]
        field_simp
      have hW2' : ¬ wsum (ps.map (fun p => { p with weight := max p.weight 0 * (t / wsum ps) })) ≤ 0 := by
        rw [hW2]; exact not_le.mpr htpos
      rw [ensure_weights_of_pos_pos _ t hW2' (not_le.mpr htpos), hW2, List.map_map]
      refine congrArg (fun f => List.map f ps) (funext fun p => ?_)
      have h1 : t / t = 1 := div_self htpos.ne'
      have hnn : 0 ≤ max p.weight 0 * (t / wsum ps) :=
        mul_nonneg (le_max_right _ _) hsnn
      simp [h1, max_eq_left hnn]

theorem C8_ensure_weights_idempotent_witness :
    (0 : ℚ) ≤ 1 ∧
    ensure_weights (ensure_weights [⟨"b", 2, []⟩] 1) 1 =
      ensure_weights [⟨"b", 2, []⟩] 1 :=
  ⟨by norm_num, C8_ensure_weights_idempotent [⟨"b", 2, []⟩] 1 (by norm_num)⟩

/-- C10: the heap model of `rake_personas` never mutates the cells the input
references point into — the first statement of the function deep-copies every
persona into fresh cells and all weight adjustments target the copies, on
every execution path (disabled / no-marginals, normal, and strict-mode
error). -/
theorem C10_rake_personas_no_input_mutation (heap : List PersonaSpec)
    (refs : List Nat) (marginals : List (String × List (String × ℚ)))
    (config : RakingConfig) (i : Nat) (hi : i < heap.length) :
    ((rake_personasH heap refs marginals config).1).getD i defaultPersona =
      heap.getD i defaultPersona := by
  unfold rake_personasH
  have key : ∀ tail : List PersonaSpec,
      (heap ++ tail).getD i defaultPersona = heap.getD i defaultPersona := by
    intro tail
    simp [List.getD, List.getElem?_append_left hi]
  by_cases hc : marginals = [] ∨ config.enabled = false
  · rw [if_pos hc]
    exact key _
  · rw [if_neg hc]
    rcases hr : rakeIterP
        (_normalize_weights (refs.map (fun r => heap.getD r defaultPersona)))
        marginals config.mode config.iterations with ⟨st, e⟩
    cases e with
    | none => simp only [hr]; exact key _
    | some err => simp only [hr]; exact key _

theorem C10_rake_personas_no_input_mutation_witness :
    0 < [(⟨"x", 1, []⟩ : PersonaSpec)].length ∧
    ((rake_personasH [⟨"x", 1, []⟩] [0] [] ⟨false, "lenient", 0⟩).1).getD 0
        defaultPersona =
      [(⟨"x", 1, []⟩ : PersonaSpec)].getD 0 defaultPersona :=
  ⟨by simp,
   C10_rake_personas_no_input_mutation [⟨"x", 1, []⟩] [0] [] ⟨false, "lenient", 0⟩ 0
     (by simp)⟩

/-- Concrete anchor bank whose first anchor-set mapping is built with rating
keys in the unsorted insertion order `[2, 1]`. -/
def bankUnsorted : AnchorBankL :=
  ⟨"1", "purchase_intent", "en-US",
    [⟨"set1", [(2, "would buy"), (1, "would not buy")]⟩]⟩

/-- C5: contrary to the claim, `SemanticSimilarityRater.ratings()` returns
the first anchor set's rating keys in dict insertion order, not sorted: on a
bank constructed with keys in order `[2, 1]` it returns `[2, 1]`, while
`AnchorBank.ratings()` (the sorted list the spec describes) returns `[1, 2]`
and the anchor embedding matrix rows — hence the pmf entries of
`score_text` — follow the sorted order `[1, 2]`. -/
theorem C5_rater_ratings_insertion_order_bug :
    ssrRatings bankUnsorted = [2, 1] ∧
    bankRatings bankUnsorted = [1, 2] ∧
    (sorted_items ⟨"set1", [(2, "would buy"), (1, "would not buy")]⟩).map
        Prod.fst = [1, 2] ∧
    ssrRatings bankUnsorted ≠ bankRatings bankUnsorted := by
  refine ⟨rfl, ?_, ?_, ?_⟩
  · decide
  · decide
  · decide

lemma wsum_pos_of_mem {ps : List PersonaSpec} {p : PersonaSpec}
    (hp : p ∈ ps) (hw : 0 < p.weight) : 0 < wsum ps := by
  have h1 : max p.weight 0 ≤ wsum ps := by
    refine List.single_le_sum (fun x hx => ?_) _ (List.mem_map_of_mem _ hp)
    rcases List.mem_map.mp hx with ⟨q, _, rfl⟩
    exact le_max_right _ _
  calc (0 : ℚ) < p.weight := hw
    _ ≤ max p.weight 0 := le_max_left _ _
    _ ≤ wsum ps := h1

lemma normalize_mem_nonneg {ps : List PersonaSpec} {p : PersonaSpec}
    (hp : p ∈ _normalize_weights ps) : 0 ≤ p.weight := by
  unfold _normalize_weights at hp
  rcases List.mem_map.mp hp with ⟨q, _, rfl⟩
  have htpos : 0 < (if wsum ps = 0 then 1 else wsum ps) := by
    split
    · norm_num
    · exact lt_of_le_of_ne (wsum_nonneg ps) (Ne.symm (by assumption))
  exact div_nonneg (le_max_right _ _) htpos.le

lemma weightSum_map_clamp_div (ps : List PersonaSpec) (t : ℚ) :
    weightSum (ps.map (fun p => { p with weight := max p.weight 0 / t })) =
      wsum ps / t := by
  induction ps with
  | nil => simp [weightSum_nil, wsum_nil]
  | cons p l ih =>
    simp only [List.map_cons, weightSum_cons, wsum_cons, ih, add_div]

lemma wsum_map_clamp_div (ps : List PersonaSpec) (t : ℚ) (ht : 0 ≤ t) :
    wsum (ps.map (fun p => { p with weight := max p.weight 0 / t })) =
      wsum ps / t := by
  induction ps with
  | nil => simp [wsum_nil]
  | cons p l ih =>
    simp only [List.map_cons, wsum_cons, ih, add_div]
    rw [max_eq_left (div_nonneg (le_max_right _ _) ht)]

lemma normalize_weightSum_of_pos {ps : List PersonaSpec}
    (h : 0 < wsum ps) : weightSum (_normalize_weights ps) = 1 := by
  unfold _normalize_weights
  rw [if_neg h.ne', weightSum_map_clamp_div, div_self h.ne']

lemma normalize_wsum_of_pos {ps : List PersonaSpec}
    (h : 0 < wsum ps) : wsum (_normalize_weights ps) = 1 := by
  unfold _normalize_weights
  rw [if_neg h.ne', wsum_map_clamp_div _ _ h.le, div_self h.ne']

lemma cv_applyAdjustments (ps : List PersonaSpec) (field : String)
    (m : String → ℚ) :
    ∀ q ∈ applyAdjustments ps field m, ∃ p ∈ ps,
      q.attrs = p.attrs ∧ q.name = p.name ∧
      (∀ f2, _category_value q f2 = _category_value p f2) := by
  intro q hq
  unfold applyAdjustments at hq
  rcases List.mem_map.mp hq with ⟨p, hp, hpq⟩
  refine ⟨p, hp, ?_⟩
  cases hcv : _category_value p field with
  | none =>
    rw [hcv] at hpq
    exact hpq ▸ ⟨rfl, rfl, fun _ => rfl⟩
  | some cat =>
    rw [hcv] at hpq
    subst hpq
    exact ⟨rfl, rfl, fun f2 => by unfold _category_value; rfl⟩

lemma currentTotal_applyAdjustments (ps : List PersonaSpec) (field cat : String)
    (m : String → ℚ) :
    currentTotal (applyAdjustments ps field m) field cat =
      m cat * currentTotal ps field cat := by
  induction ps with
  | nil => simp [currentTotal, applyAdjustments]
  | cons p l ih =>
    unfold applyAdjustments at ih ⊢
    simp only [List.map_cons]
    cases hcv : _category_value p field with
    | none =>
      unfold currentTotal at ih ⊢
      rw [List.filter_cons, List.filter_cons]
      simp only [hcv]
      norm_num
      exact ih
    | some c =>
      by_cases hc : c = cat
      · subst hc
        unfold currentTotal at ih ⊢
        rw [List.filter_cons, List.filter_cons]
        have hcv2 : _category_value
            { p with weight := p.weight * m c } field = some c := by
          unfold _category_value at hcv ⊢
          exact hcv
        simp only [hcv, hcv2]
        norm_num
        rw [ih]
        ring
      · unfold currentTotal at ih ⊢
        rw [List.filter_cons, List.filter_cons]
        have hcv2 : _category_value
            { p with weight := p.weight * m c } field = some c := by
          unfold _category_value at hcv ⊢
          exact hcv
        simp only [hcv, hcv2]
        have : ¬ (some c = some cat) := by simpa using hc
        simp only [if_neg this, decide_eq_true_eq]
        exact ih

lemma filter_weightSum_le_wsum (ps : List PersonaSpec)
    (pred : PersonaSpec → Bool) :
    ((ps.filter pred).map (fun p => p.weight)).sum ≤ wsum ps := by
  induction ps with
  | nil => simp [wsum_nil]
  | cons p l ih =>
    rw [List.filter_cons, wsum_cons]
    by_cases hp : pred p
    · simp only [hp, if_pos]
      simp only [List.map_cons, List.sum_cons]
      have := le_max_left p.weight 0
      linarith
    · simp only [hp]
      simp only [Bool.false_eq_true, if_false]
      have := le_max_right p.weight 0
      linarith

lemma exists_pos_of_sum_pos {α : Type} (l : List α) (g : α → ℚ)
    (h : 0 < (l.map g).sum) : ∃ x ∈ l, 0 < g x := by
  induction l with
  | nil => simp at h
  | cons x l ih =>
    simp only [List.map_cons, List.sum_cons] at h
    by_cases hx : 0 < g x
    · exact ⟨x, List.mem_cons_self _ _, hx⟩
    · have : 0 < (l.map g).sum := by
        push_neg at hx
        linarith
      rcases ih this with ⟨y, hy, hgy⟩
      exact ⟨y, List.mem_cons_of_mem _ hy, hgy⟩

/-- Invariant carried through the raking sweeps: non-negative weights with
clamped total exactly 1. -/
def GoodPop (ps : List PersonaSpec) : Prop :=
  (∀ p ∈ ps, 0 ≤ p.weight) ∧ wsum ps = 1

lemma applyAdjustments_wsum_pos (ps : List PersonaSpec) (field : String)
    (m : String → ℚ) (c : String) (h1 : 0 < m c)
    (h2 : 0 < currentTotal ps field c) :
    0 < wsum (applyAdjustments ps field m) := by
  have hpos : 0 < currentTotal (applyAdjustments ps field m) field c := by
    rw [currentTotal_applyAdjustments]
    exact mul_pos h1 h2
  exact lt_of_lt_of_le hpos (filter_weightSum_le_wsum _ _)

lemma rakeField_preserves {ps out : List PersonaSpec} {field : String}
    {buckets : List (String × ℚ)} {mode : String}
    (hg : GoodPop ps) (h : rakeField ps field buckets mode = .ok out) :
    GoodPop out := by
  simp only [rakeField] at h
  split at h
  · exact (Except.ok.inj h) ▸ hg
  · split at h
    · exact (Except.ok.inj h) ▸ hg
    · split at h
      · exact absurd h (by simp)
      · split at h
        · exact (Except.ok.inj h) ▸ hg
        · split at h
          · exact absurd h (by simp)
          · -- main adjustment branch
            rename_i hft hpres hmiss hts hdead
            obtain rfl := (Except.ok.inj h).symm
            have hft' : 0 < fieldTotal ps field := lt_of_not_le hft
            have hts' : 0 < ((( fieldCats ps field).filter
                (fun c => 0 < currentTotal ps field c)).map
                  (bucketGet buckets)).sum := lt_of_not_le hts
            obtain ⟨c, hcmem, hcpos⟩ :=
              exists_pos_of_sum_pos _ (bucketGet buckets) hts'
            have hcur : 0 < currentTotal ps field c := by
              have := (List.mem_filter.mp hcmem).2
              exact of_decide_eq_true this
            have hshare : 0 < currentTotal ps field c / fieldTotal ps field :=
              div_pos hcur hft'
            refine ⟨fun p hp => normalize_mem_nonneg hp,
              normalize_wsum_of_pos
                (applyAdjustments_wsum_pos _ _ _ c ?_ hcur)⟩
            rw [if_pos hcmem, if_neg (not_le.mpr hshare)]
            exact div_pos (div_pos hcpos hts') hshare

lemma except_error_bind {α β : Type} (e : String)
    (g : α → Except String β) :
    (Except.error e >>= g) = Except.error e := rfl

lemma except_ok_bind {α β : Type} (a : α) (g : α → Except String β) :
    (Except.ok a >>= g) = g a := rfl

lemma foldlM_except_inv {α : Type} (P : List PersonaSpec → Prop)
    (f : List PersonaSpec → α → Except String (List PersonaSpec))
    (hf : ∀ s a s2, P s → f s a = .ok s2 → P s2) :
    ∀ (l : List α) (s s2 : List PersonaSpec),
      P s → List.foldlM f s l = .ok s2 → P s2
  | [], s, s2, hs, h => by
    simp only [List.foldlM_nil] at h
    exact (Except.ok.inj h) ▸ hs
  | a :: l, s, s2, hs, h => by
    rw [List.foldlM_cons] at h
    cases hfa : f s a with
    | error e =>
      rw [hfa, except_error_bind] at h
      exact absurd h (by simp)
    | ok s1 =>
      rw [hfa, except_ok_bind] at h
      exact foldlM_except_inv P f hf l s1 s2 (hf s a s1 hs hfa) h

lemma rakeFields_preserves {ps out : List PersonaSpec}
    {marginals : List (String × List (String × ℚ))} {mode : String}
    (hg : GoodPop ps) (h : rakeFields ps marginals mode = .ok out) :
    GoodPop out :=
  foldlM_except_inv GoodPop _
    (fun _s _fb _s2 hgs hs => rakeField_preserves hgs hs)
    marginals ps out hg h

/-- C9: whenever `rake_personas` returns (does not raise), every returned
weight is non-negative, and if at least one input persona has positive
weight then the returned weights sum to exactly 1 — on every path, raking
enabled or disabled, strict or lenient. -/
theorem C9_rake_personas_output_normalized (personas : List PersonaSpec)
    (marginals : List (String × List (String × ℚ))) (config : RakingConfig)
    (out : List PersonaSpec)
    (h : rake_personas personas marginals config = .ok out) :
    (∀ p ∈ out, 0 ≤ p.weight) ∧
    ((∃ p ∈ personas, 0 < p.weight) → weightSum out = 1) := by
  unfold rake_personas at h
  by_cases hc : marginals = [] ∨ config.enabled = false
  · rw [if_pos hc] at h
    obtain rfl := (Except.ok.inj h).symm
    refine ⟨fun p hp => normalize_mem_nonneg hp, ?_⟩
    rintro ⟨p, hp, hw⟩
    exact normalize_weightSum_of_pos (wsum_pos_of_mem hp hw)
  · rw [if_neg hc] at h
    cases hl : (List.range config.iterations).foldlM
        (fun acc _ => rakeFields acc marginals config.mode)
        (_normalize_weights personas) with
    | error e =>
      rw [hl] at h
      exact absurd h (by simp)
    | ok psN =>
      rw [hl] at h
      obtain rfl := (Except.ok.inj h).symm
      refine ⟨fun p hp => normalize_mem_nonneg hp, ?_⟩
      rintro ⟨p, hp, hw⟩
      have h0 : GoodPop (_normalize_weights personas) :=
        ⟨fun q hq => normalize_mem_nonneg hq,
         normalize_wsum_of_pos (wsum_pos_of_mem hp hw)⟩
      have hN : GoodPop psN :=
        foldlM_except_inv GoodPop _
          (fun _s _a _s2 hgs hs => rakeFields_preserves hgs hs)
          (List.range config.iterations) _ psN h0 hl
      refine normalize_weightSum_of_pos ?_
      rw [hN.2]
      norm_num

theorem C9_rake_personas_output_normalized_witness :
    (∀ p ∈ [(⟨"a", 1, []⟩ : PersonaSpec)], 0 ≤ p.weight) ∧
    ((∃ p ∈ [(⟨"a", 1, []⟩ : PersonaSpec)], 0 < p.weight) →
      weightSum [(⟨"a", 1, []⟩ : PersonaSpec)] = 1) :=
  C9_rake_personas_output_normalized [⟨"a", 1, []⟩] [] ⟨false, "lenient", 5⟩
    [⟨"a", 1, []⟩]
    (by norm_num [rake_personas, _normalize_weights, wsum])

lemma mem_filter_weight_le_sum {l : List PersonaSpec}
    {pred : PersonaSpec → Bool} {q : PersonaSpec}
    (hq : q ∈ l.filter pred) (hnn : ∀ p ∈ l, 0 ≤ p.weight) :
    q.weight ≤ ((l.filter pred).map (fun p => p.weight)).sum := by
  refine List.single_le_sum (fun x hx => ?_) _ (List.mem_map_of_mem _ hq)
  rcases List.mem_map.mp hx with ⟨r, hr, rfl⟩
  exact hnn r (List.mem_of_mem_filter hr)

lemma mem_normalize_cv {ps : List PersonaSpec} {q : PersonaSpec}
    (hq : q ∈ _normalize_weights ps) :
    ∃ p ∈ ps, ∀ f, _category_value q f = _category_value p f := by
  unfold _normalize_weights at hq
  rcases List.mem_map.mp hq with ⟨p, hp, rfl⟩
  exact ⟨p, hp, fun f => rfl⟩

lemma rakeField_strict_missing (ps : List PersonaSpec) (field : String)
    (buckets : List (String × ℚ))
    (hft : 0 < fieldTotal ps field)
    (hnn : ∀ p ∈ ps, 0 ≤ p.weight)
    (hcat : ∃ cw ∈ buckets, 0 < cw.2 ∧
      ∀ p ∈ ps, _category_value p field ≠ some cw.1) :
    rakeField ps field buckets "strict" =
      .error "Raking failed: field missing categories" := by
  have hft2 : 0 < ((ps.filter
      (fun p => (_category_value p field).isSome)).map
        (fun p => p.weight)).sum := hft
  obtain ⟨q, hqf, hqw⟩ := exists_pos_of_sum_pos
    (ps.filter (fun p => (_category_value p field).isSome))
    (fun p => p.weight) hft2
  have hq_ps : q ∈ ps := List.mem_of_mem_filter hqf
  have hq_some : (_category_value q field).isSome :=
    (List.mem_filter.mp hqf).2
  obtain ⟨cq, hcq⟩ := Option.isSome_iff_exists.mp hq_some
  have hq_in_cfilter :
      q ∈ ps.filter (fun p => _category_value p field = some cq) :=
    List.mem_filter.mpr ⟨hq_ps, decide_eq_true hcq⟩
  have hcur_pos : 0 < currentTotal ps field cq :=
    lt_of_lt_of_le hqw (mem_filter_weight_le_sum hq_in_cfilter hnn)
  have hcq_cats : cq ∈ fieldCats ps field :=
    List.mem_dedup.mpr (List.mem_filterMap.mpr ⟨q, hq_ps, hcq⟩)
  have hcq_present : cq ∈ (fieldCats ps field).filter
      (fun c => 0 < currentTotal ps field c) :=
    List.mem_filter.mpr ⟨hcq_cats, decide_eq_true hcur_pos⟩
  have hpres_ne : ¬ ((fieldCats ps field).filter
      (fun c => 0 < currentTotal ps field c) = []) :=
    List.ne_nil_of_mem hcq_present
  obtain ⟨cw, hcw_mem, hcw_pos, hcw_none⟩ := hcat
  have hcw_notin : cw.1 ∉ (fieldCats ps field).filter
      (fun c => 0 < currentTotal ps field c) := by
    intro hmem
    have hc_cats := List.mem_of_mem_filter hmem
    obtain ⟨p, hp_ps, hp_cv⟩ := List.mem_filterMap.mp (List.mem_dedup.mp hc_cats)
    exact hcw_none p hp_ps hp_cv
  have hmiss_mem : cw ∈ buckets.filter (fun bw => (0 < bw.2 ∧
      bw.1 ∉ (fieldCats ps field).filter
        (fun c => 0 < currentTotal ps field c) : Prop)) :=
    List.mem_filter.mpr ⟨hcw_mem, decide_eq_true ⟨hcw_pos, hcw_notin⟩⟩
  have hmiss_ne : buckets.filter (fun bw => (0 < bw.2 ∧
      bw.1 ∉ (fieldCats ps field).filter
        (fun c => 0 < currentTotal ps field c) : Prop)) ≠ [] :=
    List.ne_nil_of_mem hmiss_mem
  simp only [rakeField]
  rw [if_neg (not_le.mpr hft), if_neg hpres_ne, if_pos ⟨hmiss_ne, trivial⟩]

/-- C3 (amended): in strict mode, `rake_personas` raises when a target
category of the *first* raked field has positive target weight but no
persona carries that category value, provided the field's observed mass
over the (normalised) population is positive. For a later field the raise
is not guaranteed: an earlier pass can zero that field's observed mass, so
its pass is skipped — see the counterexample. -/
theorem C3_rake_strict_missing_category_raises (personas : List PersonaSpec)
    (field : String) (buckets : List (String × ℚ))
    (rest : List (String × List (String × ℚ))) (config : RakingConfig)
    (hmode : config.mode = "strict") (hen : config.enabled = true)
    (hiter : 0 < config.iterations)
    (hcat : ∃ cw ∈ buckets, 0 < cw.2 ∧
      ∀ p ∈ personas, _category_value p field ≠ some cw.1)
    (hft : 0 < fieldTotal (_normalize_weights personas) field) :
    ∃ e, rake_personas personas ((field, buckets) :: rest) config = .error e := by
  refine ⟨"Raking failed: field missing categories", ?_⟩
  have hcat2 : ∃ cw ∈ buckets, 0 < cw.2 ∧
      ∀ p ∈ _normalize_weights personas,
        _category_value p field ≠ some cw.1 := by
    obtain ⟨cw, hmem, hpos, hnone⟩ := hcat
    refine ⟨cw, hmem, hpos, fun q hq => ?_⟩
    obtain ⟨p, hp, hcv⟩ := mem_normalize_cv hq
    rw [hcv field]
    exact hnone p hp
  have hstep : rakeFields (_normalize_weights personas)
      ((field, buckets) :: rest) config.mode =
      .error "Raking failed: field missing categories" := by
    unfold rakeFields
    rw [List.foldlM_cons]
    have hrf : rakeField (_normalize_weights personas) field buckets
        config.mode = .error "Raking failed: field missing categories" := by
      rw [hmode]
      exact rakeField_strict_missing _ _ _ hft
        (fun p hp => normalize_mem_nonneg hp) hcat2
    rw [hrf, except_error_bind]
  have hc : ¬ (((field, buckets) :: rest) = [] ∨ config.enabled = false) := by
    simp [hen]
  unfold rake_personas
  rw [if_neg hc]
  obtain ⟨n, hn⟩ : ∃ n, config.iterations = n + 1 :=
    ⟨config.iterations - 1, by omega⟩
  rw [hn, List.range_succ_eq_map]
  simp only [List.foldlM_cons, hstep, except_error_bind]

theorem C3_rake_strict_missing_category_raises_witness :
    (0 < (30 : Nat)) ∧
    (∃ cw ∈ [("18-24", (1 : ℚ)/2), ("45-64", (1 : ℚ)/2)], 0 < cw.2 ∧
      ∀ p ∈ [(⟨"p", 1, [("age", "18-24")]⟩ : PersonaSpec)],
        _category_value p "age" ≠ some cw.1) ∧
    0 < fieldTotal
      (_normalize_weights [(⟨"p", 1, [("age", "18-24")]⟩ : PersonaSpec)])
      "age" ∧
    (∃ e, rake_personas [(⟨"p", 1, [("age", "18-24")]⟩ : PersonaSpec)]
      [("age", [("18-24", (1 : ℚ)/2), ("45-64", (1 : ℚ)/2)])]
      ⟨true, "strict", 30⟩ = .error e) := by
  have hcv : _category_value
      (⟨"p", 1, [("age", "18-24")]⟩ : PersonaSpec) "age" = some "18-24" := by
    decide
  have hnorm : _normalize_weights
      [(⟨"p", 1, [("age", "18-24")]⟩ : PersonaSpec)] =
      [⟨"p", 1, [("age", "18-24")]⟩] := by
    norm_num [_normalize_weights, wsum]
  have hft : 0 < fieldTotal
      (_normalize_weights [(⟨"p", 1, [("age", "18-24")]⟩ : PersonaSpec)])
      "age" := by
    rw [hnorm]
    simp [fieldTotal, List.filter_cons, hcv]
  have hcat : ∃ cw ∈ [("18-24", (1 : ℚ)/2), ("45-64", (1 : ℚ)/2)], 0 < cw.2 ∧
      ∀ p ∈ [(⟨"p", 1, [("age", "18-24")]⟩ : PersonaSpec)],
        _category_value p "age" ≠ some cw.1 := by
    refine ⟨("45-64", (1 : ℚ)/2), by simp, by norm_num, ?_⟩
    intro p hp
    rw [List.mem_singleton] at hp
    subst hp
    rw [hcv]
    simp
  exact ⟨by norm_num, hcat, hft,
    C3_rake_strict_missing_category_raises _ "age" _ [] ⟨true, "strict", 30⟩
      rfl rfl (by norm_num) hcat hft⟩

/-- Personas of the C3 counterexample: `cexP1` carries both raked fields
(`f1 = a`, `f2 = x`), `cexP2` only the first (`f1 = b`). -/
def cexP1 : PersonaSpec := ⟨"p1", 1, [("f1", "a"), ("f2", "x")]⟩

/-- Second persona of the C3 counterexample. -/
def cexP2 : PersonaSpec := ⟨"p2", 1, [("f1", "b")]⟩

/-- The counterexample personas after the initial normalisation. -/
def cexQ1 : PersonaSpec := ⟨"p1", 1/2, [("f1", "a"), ("f2", "x")]⟩

/-- Second normalised counterexample persona. -/
def cexQ2 : PersonaSpec := ⟨"p2", 1/2, [("f1", "b")]⟩

/-- The counterexample personas after the `f1` pass: the target for `f1`
puts weight 0 on category `a`, so `cexP1`'s weight is multiplied by 0. -/
def cexR1 : PersonaSpec := ⟨"p1", 0, [("f1", "a"), ("f2", "x")]⟩

/-- Second persona after the `f1` pass. -/
def cexR2 : PersonaSpec := ⟨"p2", 1, [("f1", "b")]⟩

lemma cex_norm : _normalize_weights [cexP1, cexP2] = [cexQ1, cexQ2] := by
  norm_num [_normalize_weights, wsum, cexP1, cexP2, cexQ1, cexQ2]

lemma cex_ct_a : currentTotal [cexQ1, cexQ2] "f1" "a" = 1/2 := by
  have h1 : _category_value cexQ1 "f1" = some "a" := by decide
  have h2 : _category_value cexQ2 "f1" = some "b" := by decide
  simp [currentTotal, h1, h2]
  norm_num [cexQ1]

lemma cex_ct_b : currentTotal [cexQ1, cexQ2] "f1" "b" = 1/2 := by
  have h1 : _category_value cexQ1 "f1" = some "a" := by decide
  have h2 : _category_value cexQ2 "f1" = some "b" := by decide
  simp [currentTotal, h1, h2]
  norm_num [cexQ2]

lemma cex_ft1 : fieldTotal [cexQ1, cexQ2] "f1" = 1 := by
  have h1 : _category_value cexQ1 "f1" = some "a" := by decide
  have h2 : _category_value cexQ2 "f1" = some "b" := by decide
  simp [fieldTotal, h1, h2]
  norm_num [cexQ1, cexQ2]

lemma cex_cats : fieldCats [cexQ1, cexQ2] "f1" = ["a", "b"] := by decide

lemma cex_present : (fieldCats [cexQ1, cexQ2] "f1").filter
    (fun c => 0 < currentTotal [cexQ1, cexQ2] "f1" c) = ["a", "b"] := by
  rw [cex_cats, List.filter_cons, List.filter_cons, List.filter_nil,
    if_pos (decide_eq_true (by rw [cex_ct_a]; norm_num)),
    if_pos (decide_eq_true (by rw [cex_ct_b]; norm_num))]

lemma cex_bga : bucketGet [("b", (1 : ℚ))] "a" = 0 := by decide

lemma cex_bgb : bucketGet [("b", (1 : ℚ))] "b" = 1 := by decide

lemma cex_ts : ((["a", "b"] : List String).map
    (bucketGet [("b", (1 : ℚ))])).sum = 1 := by
  rw [List.map_cons, List.map_cons, List.map_nil, cex_bga, cex_bgb]
  simp

lemma cex_f1 : rakeField [cexQ1, cexQ2] "f1" [("b", (1 : ℚ))] "strict" =
    .ok [cexR1, cexR2] := by
  have h1 : _category_value cexQ1 "f1" = some "a" := by decide
  have h2 : _category_value cexQ2 "f1" = some "b" := by decide
  simp only [rakeField]
  rw [cex_ft1, cex_present, cex_ts]
  rw [if_neg (by norm_num : ¬ (1 : ℚ) ≤ 0)]
  rw [if_neg (by simp : ¬ ((["a", "b"] : List String) = []))]
  have hmiss : ([("b", (1 : ℚ))].filter
      (fun bw => (0 < bw.2 ∧ bw.1 ∉ (["a", "b"] : List String) : Prop))) = [] := by
    simp
  rw [hmiss]
  rw [if_neg (show ¬ (([] : List (String × ℚ)) ≠ [] ∧ True) by simp)]
  rw [if_neg (by norm_num : ¬ (1 : ℚ) ≤ 0)]
  have hany : ((["a", "b"] : List String).any fun c =>
      decide (currentTotal [cexQ1, cexQ2] "f1" c / 1 ≤ 0) &&
      decide (0 < bucketGet [("b", (1 : ℚ))] c / 1)) = false := by
    simp only [List.any_cons, List.any_nil, cex_ct_a, cex_ct_b, cex_bga, cex_bgb]
    norm_num
  rw [if_neg (show ¬ (True ∧ ((["a", "b"] : List String).any fun c =>
      decide (currentTotal [cexQ1, cexQ2] "f1" c / 1 ≤ 0) &&
      decide (0 < bucketGet [("b", (1 : ℚ))] c / 1)) = true) from fun hcon =>
      Bool.false_ne_true (hany ▸ hcon.2))]
  refine congrArg Except.ok ?_
  simp only [applyAdjustments, List.map_cons, List.map_nil, h1, h2]
  rw [cex_ct_a, cex_ct_b, cex_bga, cex_bgb]
  norm_num [cexQ1, cexQ2]
  norm_num [_normalize_weights, wsum, cexR1, cexR2]

lemma cex_f2 : rakeField [cexR1, cexR2] "f2" [("y", (1 : ℚ))] "strict" =
    .ok [cexR1, cexR2] := by
  have h1 : _category_value cexR1 "f2" = some "x" := by decide
  have h2 : _category_value cexR2 "f2" = none := by decide
  have hft : fieldTotal [cexR1, cexR2] "f2" = 0 := by
    simp [fieldTotal, h1, h2]
    norm_num [cexR1]
  simp only [rakeField]
  rw [hft, if_pos (le_refl (0 : ℚ))]

/-- C3 (counterexample): the claim fails for a raked field that is not
processed first. Strict mode, target category `y` of field `f2` has weight
1 and no persona carries it, and `f2`'s observed mass over the normalised
input population is positive — yet `rake_personas` returns `.ok`: the
earlier `f1` pass multiplies the only `f2`-carrier's weight by 0 (its `f1`
category has target weight 0 after renormalising to present categories), so
the `f2` pass sees zero observed mass and is skipped without raising. -/
theorem C3_rake_strict_later_field_cex :
    (⟨true, "strict", 1⟩ : RakingConfig).mode = "strict" ∧
    (∃ cw ∈ [("y", (1 : ℚ))], 0 < cw.2 ∧
      ∀ p ∈ [cexP1, cexP2], _category_value p "f2" ≠ some cw.1) ∧
    0 < fieldTotal (_normalize_weights [cexP1, cexP2]) "f2" ∧
    ∃ out, rake_personas [cexP1, cexP2]
      [("f1", [("b", (1 : ℚ))]), ("f2", [("y", (1 : ℚ))])]
      ⟨true, "strict", 1⟩ = .ok out := by
  refine ⟨rfl, ?_, ?_, ?_⟩
  · refine ⟨("y", 1), by simp, by norm_num, ?_⟩
    intro p hp
    rcases List.mem_cons.mp hp with rfl | hp2
    · decide
    · rw [List.mem_singleton] at hp2
      subst hp2
      decide
  · rw [cex_norm]
    have h1 : _category_value cexQ1 "f2" = some "x" := by decide
    have h2 : _category_value cexQ2 "f2" = none := by decide
    simp [fieldTotal, h1, h2]
    norm_num [cexQ1]
  · have hfields : rakeFields [cexQ1, cexQ2]
        [("f1", [("b", (1 : ℚ))]), ("f2", [("y", (1 : ℚ))])] "strict" =
        .ok [cexR1, cexR2] := by
      unfold rakeFields
      rw [List.foldlM_cons, cex_f1, except_ok_bind, List.foldlM_cons, cex_f2,
        except_ok_bind, List.foldlM_nil]
      rfl
    have hloop : (List.range
          (⟨true, "strict", 1⟩ : RakingConfig).iterations).foldlM
        (fun acc _ => rakeFields acc
          [("f1", [("b", (1 : ℚ))]), ("f2", [("y", (1 : ℚ))])]
          (⟨true, "strict", 1⟩ : RakingConfig).mode)
        (_normalize_weights [cexP1, cexP2]) = .ok [cexR1, cexR2] := by
      rw [show List.range 1 = [0] from rfl]
      simp only [List.foldlM_cons, List.foldlM_nil, cex_norm]
      rw [hfields, except_ok_bind]
      rfl
    have hc : ¬ (([("f1", [("b", (1 : ℚ))]), ("f2", [("y", (1 : ℚ))])] :
        List (String × List (String × ℚ))) = [] ∨
        (⟨true, "strict", 1⟩ : RakingConfig).enabled = false) := by
      simp
    refine ⟨_normalize_weights [cexR1, cexR2], ?_⟩
    unfold rake_personas
    rw [if_neg hc, hloop]

/-- Names of the personas of a list, in order. -/
def namesOf (ps : List PersonaSpec) : List String :=
  ps.map (fun p => p.name)

/-- Total weight of the personas whose name satisfies `pn`. -/
def filterWeight (pn : String → Bool) (ps : List PersonaSpec) : ℚ :=
  ((ps.filter (fun p => pn p.name)).map (fun p => p.weight)).sum

lemma upd_id_of_no_match {acc : List PersonaSpec} {x : String} {w : ℚ}
    (h : ∀ r ∈ acc, r.name ≠ x) :
    acc.map (fun q => if q.name = x then
      { q with weight := q.weight + w } else q) = acc := by
  induction acc with
  | nil => rfl
  | cons q acc ih =>
    simp only [List.map_cons]
    rw [if_neg (h q (List.mem_cons_self _ _)),
      ih (fun r hr => h r (List.mem_cons_of_mem _ hr))]

lemma upd_weightSum {acc : List PersonaSpec} {x : String} {w : ℚ}
    (hnd : (namesOf acc).Nodup)
    (hany : acc.any (fun q => q.name = x)) :
    weightSum (acc.map (fun q => if q.name = x then
      { q with weight := q.weight + w } else q)) = weightSum acc + w := by
  induction acc with
  | nil => simp at hany
  | cons q acc ih =>
    rw [namesOf, List.map_cons, List.nodup_cons] at hnd
    by_cases hq : q.name = x
    · have hnot : ∀ r ∈ acc, r.name ≠ x := by
        intro r hr hrx
        exact hnd.1 (hq ▸ hrx ▸ List.mem_map_of_mem (fun p => p.name) hr)
      simp only [List.map_cons, if_pos hq, weightSum_cons,
        upd_id_of_no_match hnot]
      ring
    · have hany2 : acc.any (fun q => q.name = x) := by
        rcases List.any_eq_true.mp hany with ⟨r, hr, hrx⟩
        rcases List.mem_cons.mp hr with rfl | hr2
        · exact absurd (of_decide_eq_true hrx) hq
        · exact List.any_eq_true.mpr ⟨r, hr2, hrx⟩
      simp only [List.map_cons, if_neg hq, weightSum_cons, ih hnd.2 hany2]
      ring

lemma upd_filterWeight {acc : List PersonaSpec} {x : String} {w : ℚ}
    {pn : String → Bool} (hpn : pn x = false) :
    filterWeight pn (acc.map (fun q => if q.name = x then
      { q with weight := q.weight + w } else q)) = filterWeight pn acc := by
  induction acc with
  | nil => rfl
  | cons q acc ih =>
    by_cases hq : q.name = x
    · have hq_out : pn q.name = false := by rw [hq]; exact hpn
      simp only [List.map_cons, if_pos hq]
      unfold filterWeight at ih ⊢
      rw [List.filter_cons, List.filter_cons]
      simp only [hq_out]
      exact ih
    · simp only [List.map_cons, if_neg hq]
      unfold filterWeight at ih ⊢
      rw [List.filter_cons, List.filter_cons]
      by_cases hpq : pn q.name
      · rw [if_pos hpq, if_pos hpq]
        simp only [List.map_cons, List.sum_cons]
        rw [ih]
      · rw [if_neg hpq, if_neg hpq]
        exact ih

lemma acc_step_nodup {acc : List PersonaSpec} {p : PersonaSpec}
    (hnd : (namesOf acc).Nodup) : (namesOf (_acc_step acc p)).Nodup := by
  unfold _acc_step
  by_cases hany : acc.any (fun q => q.name = p.name)
  · rw [if_pos hany]
    have : namesOf (acc.map (fun q => if q.name = p.name then
        { q with weight := q.weight + p.weight } else q)) = namesOf acc := by
      unfold namesOf
      rw [List.map_map]
      refine List.map_congr_left (fun q _ => ?_)
      by_cases hq : q.name = p.name
      · simp [hq]
      · simp [hq]
    rw [this]
    exact hnd
  · rw [if_neg hany]
    unfold namesOf
    rw [List.map_append]
    simp only [List.map_cons, List.map_nil]
    rw [List.nodup_append]
    refine ⟨hnd, List.nodup_singleton _, ?_⟩
    intro a ha hb
    rw [List.mem_singleton] at hb
    subst hb
    rcases List.mem_map.mp ha with ⟨q, hq, hqn⟩
    have hnotany : ∀ r ∈ acc, ¬ (r.name = p.name) := by
      simpa using hany
    exact hnotany q hq hqn

lemma acc_step_weightSum {acc : List PersonaSpec} {p : PersonaSpec}
    (hnd : (namesOf acc).Nodup) :
    weightSum (_acc_step acc p) = weightSum acc + p.weight := by
  unfold _acc_step
  by_cases hany : acc.any (fun q => q.name = p.name)
  · rw [if_pos hany]
    exact upd_weightSum hnd hany
  · rw [if_neg hany]
    unfold weightSum
    rw [List.map_append]
    simp

lemma acc_step_nonneg {acc : List PersonaSpec} {p : PersonaSpec}
    (hacc : ∀ q ∈ acc, 0 ≤ q.weight) (hp : 0 ≤ p.weight) :
    ∀ q ∈ _acc_step acc p, 0 ≤ q.weight := by
  unfold _acc_step
  by_cases hany : acc.any (fun q => q.name = p.name)
  · rw [if_pos hany]
    intro q hq
    rcases List.mem_map.mp hq with ⟨r, hr, rfl⟩
    by_cases hrn : r.name = p.name
    · simp only [if_pos hrn]
      have := hacc r hr
      positivity
    · simp only [if_neg hrn]
      exact hacc r hr
  · rw [if_neg hany]
    intro q hq
    rcases List.mem_append.mp hq with hq | hq
    · exact hacc q hq
    · rw [List.mem_singleton] at hq
      subst hq
      exact hp

lemma acc_step_filterWeight {acc : List PersonaSpec} {p : PersonaSpec}
    {pn : String → Bool} (hp : pn p.name = false) :
    filterWeight pn (_acc_step acc p) = filterWeight pn acc := by
  unfold _acc_step
  by_cases hany : acc.any (fun q => q.name = p.name)
  · rw [if_pos hany]
    exact upd_filterWeight hp
  · rw [if_neg hany]
    unfold filterWeight
    rw [List.filter_append]
    simp [hp]

lemma acc_step_names {acc : List PersonaSpec} {p : PersonaSpec} :
    ∀ q ∈ _acc_step acc p, q.name ∈ namesOf acc ∨ q.name = p.name := by
  unfold _acc_step
  by_cases hany : acc.any (fun q => q.name = p.name)
  · rw [if_pos hany]
    intro q hq
    rcases List.mem_map.mp hq with ⟨r, hr, rfl⟩
    by_cases hrn : r.name = p.name
    · simp only [if_pos hrn]
      exact Or.inl (List.mem_map_of_mem (fun s => s.name) hr)
    · simp only [if_neg hrn]
      exact Or.inl (List.mem_map_of_mem (fun s => s.name) hr)
  · rw [if_neg hany]
    intro q hq
    rcases List.mem_append.mp hq with hq | hq
    · exact Or.inl (List.mem_map_of_mem (fun s => s.name) hq)
    · rw [List.mem_singleton] at hq
      subst hq
      exact Or.inr rfl

lemma accumulate_nodup : ∀ (ps acc : List PersonaSpec),
    (namesOf acc).Nodup → (namesOf (_accumulate acc ps)).Nodup
  | [], _acc, h => h
  | p :: ps, acc, h =>
    accumulate_nodup ps (_acc_step acc p) (acc_step_nodup h)

lemma accumulate_weightSum : ∀ (ps acc : List PersonaSpec),
    (namesOf acc).Nodup →
    weightSum (_accumulate acc ps) = weightSum acc + weightSum ps
  | [], acc, _ => by simp [_accumulate, weightSum_nil]
  | p :: ps, acc, h => by
    unfold _accumulate
    rw [List.foldl_cons]
    have ih := accumulate_weightSum ps (_acc_step acc p) (acc_step_nodup h)
    unfold _accumulate at ih
    rw [ih, acc_step_weightSum h, weightSum_cons]
    ring

lemma accumulate_nonneg : ∀ (ps acc : List PersonaSpec),
    (∀ q ∈ acc, 0 ≤ q.weight) → (∀ q ∈ ps, 0 ≤ q.weight) →
    ∀ q ∈ _accumulate acc ps, 0 ≤ q.weight
  | [], acc, ha, _ => ha
  | p :: ps, acc, ha, hp => by
    unfold _accumulate
    rw [List.foldl_cons]
    have ih := accumulate_nonneg ps (_acc_step acc p)
      (acc_step_nonneg ha (hp p (List.mem_cons_self _ _)))
      (fun q hq => hp q (List.mem_cons_of_mem _ hq))
    unfold _accumulate at ih
    exact ih

lemma accumulate_filterWeight : ∀ (ps acc : List PersonaSpec)
    (pn : String → Bool), (∀ p ∈ ps, pn p.name = false) →
    filterWeight pn (_accumulate acc ps) = filterWeight pn acc
  | [], _acc, _pn, _ => rfl
  | p :: ps, acc, pn, h => by
    unfold _accumulate
    rw [List.foldl_cons]
    have ih := accumulate_filterWeight ps (_acc_step acc p) pn
      (fun q hq => h q (List.mem_cons_of_mem _ hq))
    unfold _accumulate at ih
    rw [ih, acc_step_filterWeight (h p (List.mem_cons_self _ _))]

lemma accumulate_names : ∀ (ps acc : List PersonaSpec),
    ∀ q ∈ _accumulate acc ps, q.name ∈ namesOf acc ∨ q.name ∈ namesOf ps
  | [], acc, q, hq => Or.inl (List.mem_map_of_mem _ hq)
  | p :: ps, acc, q, hq => by
    unfold _accumulate at hq
    rw [List.foldl_cons] at hq
    have ih := accumulate_names ps (_acc_step acc p) q (by
      unfold _accumulate
      exact hq)
    rcases ih with hin | hin
    · rcases List.mem_map.mp hin with ⟨r, hr, hrq⟩
      rcases acc_step_names r hr with h2 | h2
      · exact Or.inl (hrq ▸ h2)
      · right
        rw [← hrq, h2]
        unfold namesOf
        rw [List.map_cons]
        exact List.mem_cons_self _ _
    · right
      unfold namesOf at hin ⊢
      rw [List.map_cons]
      exact List.mem_cons_of_mem _ hin

lemma filterWeight_eq_weightSum {ps : List PersonaSpec} {pn : String → Bool}
    (h : ∀ q ∈ ps, pn q.name = true) : filterWeight pn ps = weightSum ps := by
  unfold filterWeight
  rw [List.filter_eq_self.mpr h]
  rfl

lemma wsum_eq_weightSum {ps : List PersonaSpec}
    (h : ∀ q ∈ ps, 0 ≤ q.weight) : wsum ps = weightSum ps := by
  induction ps with
  | nil => rfl
  | cons p l ih =>
    rw [wsum_cons, weightSum_cons, max_eq_left (h p (List.mem_cons_self _ _)),
      ih (fun q hq => h q (List.mem_cons_of_mem _ hq))]

lemma all_nonpos_of_wsum_nonpos {ps : List PersonaSpec}
    (h : wsum ps ≤ 0) : ∀ p ∈ ps, p.weight ≤ 0 := by
  induction ps with
  | nil => simp
  | cons p l ih =>
    rw [wsum_cons] at h
    have h1 : 0 ≤ max p.weight 0 := le_max_right _ _
    have h2 : 0 ≤ wsum l := wsum_nonneg l
    intro q hq
    rcases List.mem_cons.mp hq with rfl | hq2
    · have : max q.weight 0 ≤ 0 := by linarith
      exact le_trans (le_max_left _ _) this
    · exact ih (by linarith) q hq2

lemma weightSum_map_clamp_scale (ps : List PersonaSpec) (s : ℚ) :
    weightSum (ps.map (fun p => { p with weight := max p.weight 0 * s })) =
      wsum ps * s := by
  induction ps with
  | nil => simp [weightSum_nil, wsum_nil]
  | cons p l ih =>
    simp only [List.map_cons, weightSum_cons, wsum_cons, ih]
    ring

lemma filterWeight_map_clamp_scale (ps : List PersonaSpec) (s : ℚ)
    (pn : String → Bool) (h : ∀ q ∈ ps, 0 ≤ q.weight) :
    filterWeight pn (ps.map (fun p => { p with weight := max p.weight 0 * s })) =
      filterWeight pn ps * s := by
  induction ps with
  | nil => simp [filterWeight]
  | cons p l ih =>
    have hpw : max p.weight 0 = p.weight :=
      max_eq_left (h p (List.mem_cons_self _ _))
    have ih2 := ih (fun q hq => h q (List.mem_cons_of_mem _ hq))
    unfold filterWeight at ih2 ⊢
    simp only [List.map_cons]
    rw [List.filter_cons, List.filter_cons]
    by_cases hpq : pn p.name
    · rw [if_pos hpq, if_pos hpq]
      simp only [List.map_cons, List.sum_cons]
      rw [ih2, hpw]
      ring
    · rw [if_neg hpq, if_neg hpq]
      rw [ih2]

lemma ensure_weights_sum_pos {ps : List PersonaSpec} {t : ℚ}
    (htpos : 0 < t) (hpos : ∃ p ∈ ps, 0 < p.weight) :
    weightSum (ensure_weights ps t) = t ∧
    ∀ q ∈ ensure_weights ps t, 0 ≤ q.weight := by
  obtain ⟨p, hp, hw⟩ := hpos
  have hW : 0 < wsum ps := wsum_pos_of_mem hp hw
  rw [ensure_weights_of_pos_pos ps t (not_le.mpr hW) (not_le.mpr htpos)]
  constructor
  · rw [weightSum_map_clamp_scale]
    field_simp
  · intro q hq
    rcases List.mem_map.mp hq with ⟨r, _, rfl⟩
    exact mul_nonneg (le_max_right _ _) (div_nonneg htpos.le hW.le)

lemma ensure_weights_names {ps : List PersonaSpec} {t : ℚ} :
    ∀ q ∈ ensure_weights ps t, ∃ p ∈ ps, q.name = p.name := by
  intro q hq
  by_cases h1 : wsum ps ≤ 0
  · rcases eq_or_ne ps [] with rfl | hne
    · rw [ensure_weights_nil] at hq
      simp at hq
    · rw [ensure_weights_of_nonpos ps t h1 hne] at hq
      rcases List.mem_map.mp hq with ⟨p, hp, rfl⟩
      exact ⟨p, hp, rfl⟩
  · by_cases h2 : t ≤ 0
    · rw [ensure_weights_of_pos_zero ps t h1 h2] at hq
      rcases List.mem_map.mp hq with ⟨p, hp, rfl⟩
      exact ⟨p, hp, rfl⟩
    · rw [ensure_weights_of_pos_pos ps t h1 h2] at hq
      rcases List.mem_map.mp hq with ⟨p, hp, rfl⟩
      exact ⟨p, hp, rfl⟩

/-- C2: combining a bucket `A` with explicit share 0.6 and a bucket `B` with
no share (disjoint names, each carrying positive weight) yields a population
whose weights sum to exactly 1 in which the personas named from `A` carry
exactly 0.6 of the weight; and in general whenever
`combine_persona_buckets` succeeds and the result carries any positive
weight, the final rescaling pass makes the total weight exactly 1. -/
theorem C2_combine_buckets_explicit_share (A B : List PersonaSpec)
    (hA : ∃ p ∈ A, 0 < p.weight) (hB : ∃ p ∈ B, 0 < p.weight)
    (hdisj : ∀ p ∈ A, ∀ q ∈ B, p.name ≠ q.name) :
    (∃ out, combine_persona_buckets [(A, some (3/5)), (B, none)] = .ok out ∧
      weightSum out = 1 ∧
      filterWeight (fun nm => decide (nm ∈ namesOf A)) out = 3/5) ∧
    (∀ bs out, combine_persona_buckets bs = .ok out →
      (∃ p ∈ out, 0 < p.weight) → weightSum out = 1) := by
  constructor
  · have hAne : A ≠ [] := by
      rcases hA with ⟨p, hp, _⟩
      exact List.ne_nil_of_mem hp
    have hBW : 0 < wsum B := by
      rcases hB with ⟨p, hp, hw⟩
      exact wsum_pos_of_mem hp hw
    have hprepA := @ensure_weights_sum_pos A ((3 : ℚ)/5)
      (by norm_num) hA
    have hprepB := @ensure_weights_sum_pos B ((2 : ℚ)/5)
      (by norm_num) hB
    have hst : _specified_total [(A, some ((3 : ℚ)/5)), (B, none)] = 3/5 := by
      simp [_specified_total]
    have hspec : _spec_phase [(A, some ((3 : ℚ)/5)), (B, none)] =
        _accumulate [] (ensure_weights A ((3 : ℚ)/5)) := by
      simp [_spec_phase, hAne]
    have hrem : max (1 - _specified_total [(A, some ((3 : ℚ)/5)), (B, none)]) 0 =
        2/5 := by
      rw [hst]
      have h25 : (1 : ℚ) - 3/5 = 2/5 := by norm_num
      rw [h25]
      exact max_eq_left (by norm_num)
    have hfilt : List.filter (fun (b : PersonaBucket) => b.2.isNone)
        [(A, some ((3 : ℚ)/5)), (B, none)] = [(B, none)] := by
      simp
    have hraw : (([(B, none)] : List PersonaBucket).map
        (fun b => wsum b.1)).sum = wsum B := by
      simp
    have hunspec : _unspec_phase [(A, some ((3 : ℚ)/5)), (B, none)]
        (_accumulate [] (ensure_weights A ((3 : ℚ)/5))) =
        _accumulate (_accumulate [] (ensure_weights A ((3 : ℚ)/5)))
          (ensure_weights B ((2 : ℚ)/5)) := by
      simp only [_unspec_phase]
      rw [hfilt, hrem, hraw]
      rw [if_neg (by simp : ¬([((B : List PersonaSpec), (none : Option ℚ))] = [])),
        if_pos ⟨by norm_num, hBW⟩, List.foldl_cons, List.foldl_nil]
      simp only [if_pos hBW.ne']
      rw [div_self hBW.ne']
      norm_num
    have hnd0 : (namesOf ([] : List PersonaSpec)).Nodup := by
      simp [namesOf]
    have hacc1_nodup := accumulate_nodup (ensure_weights A ((3 : ℚ)/5)) [] hnd0
    have hacc1_sum : weightSum
        (_accumulate [] (ensure_weights A ((3 : ℚ)/5))) = 3/5 := by
      rw [accumulate_weightSum (ensure_weights A ((3 : ℚ)/5)) [] hnd0,
        weightSum_nil, hprepA.1]
      norm_num
    have hacc1_nonneg : ∀ q ∈ _accumulate [] (ensure_weights A ((3 : ℚ)/5)),
        0 ≤ q.weight :=
      accumulate_nonneg (ensure_weights A ((3 : ℚ)/5)) [] (by simp) hprepA.2
    have hacc2_sum : weightSum
        (_accumulate (_accumulate [] (ensure_weights A ((3 : ℚ)/5)))
          (ensure_weights B ((2 : ℚ)/5))) = 1 := by
      rw [accumulate_weightSum (ensure_weights B ((2 : ℚ)/5)) _ hacc1_nodup,
        hacc1_sum, hprepB.1]
      norm_num
    have hacc2_nonneg : ∀ q ∈ _accumulate
        (_accumulate [] (ensure_weights A ((3 : ℚ)/5)))
        (ensure_weights B ((2 : ℚ)/5)), 0 ≤ q.weight :=
      accumulate_nonneg (ensure_weights B ((2 : ℚ)/5)) _ hacc1_nonneg hprepB.2
    have hacc2_wsum : wsum (_accumulate
        (_accumulate [] (ensure_weights A ((3 : ℚ)/5)))
        (ensure_weights B ((2 : ℚ)/5))) = 1 := by
      rw [wsum_eq_weightSum hacc2_nonneg, hacc2_sum]
    have hfw1 : filterWeight (fun nm => decide (nm ∈ namesOf A))
        (_accumulate [] (ensure_weights A ((3 : ℚ)/5))) = 3/5 := by
      rw [filterWeight_eq_weightSum, hacc1_sum]
      intro q hq
      rcases accumulate_names (ensure_weights A ((3 : ℚ)/5)) [] q hq with h | h
      · simp [namesOf] at h
      · rcases List.mem_map.mp h with ⟨r, hr, hrq⟩
        rcases ensure_weights_names r hr with ⟨p, hp, hrp⟩
        refine decide_eq_true ?_
        rw [← hrq, hrp]
        exact List.mem_map_of_mem _ hp
    have hfw2 : filterWeight (fun nm => decide (nm ∈ namesOf A))
        (_accumulate (_accumulate [] (ensure_weights A ((3 : ℚ)/5)))
          (ensure_weights B ((2 : ℚ)/5))) = 3/5 := by
      rw [accumulate_filterWeight (ensure_weights B ((2 : ℚ)/5)) _ _ ?_, hfw1]
      intro p hp
      rcases ensure_weights_names p hp with ⟨q, hq, hpq⟩
      refine decide_eq_false ?_
      intro hmem
      rcases List.mem_map.mp hmem with ⟨r, hr, hrn⟩
      exact hdisj r hr q hq (by rw [hrn, hpq])
    have hres : combine_persona_buckets [(A, some ((3 : ℚ)/5)), (B, none)] =
        .ok ((_accumulate (_accumulate [] (ensure_weights A ((3 : ℚ)/5)))
          (ensure_weights B ((2 : ℚ)/5))).map (fun p =>
            { p with weight := max p.weight 0 *
              (1 / wsum (_accumulate
                (_accumulate [] (ensure_weights A ((3 : ℚ)/5)))
                (ensure_weights B ((2 : ℚ)/5)))) })) := by
      unfold combine_persona_buckets
      rw [if_neg (by rw [hst]; norm_num), hspec, hunspec,
        if_neg (by rw [hacc2_wsum]; norm_num)]
    refine ⟨_, hres, ?_, ?_⟩
    · rw [weightSum_map_clamp_scale, hacc2_wsum]
      norm_num
    · rw [filterWeight_map_clamp_scale _ _ _ hacc2_nonneg, hacc2_wsum, hfw2]
      norm_num
  · intro bs out h hpos
    unfold combine_persona_buckets at h
    by_cases herr : 1 + 1 / 1000000 < _specified_total bs
    · rw [if_pos herr] at h
      exact absurd h (by simp)
    · rw [if_neg herr] at h
      by_cases htw : wsum (_unspec_phase bs (_spec_phase bs)) ≤ 0
      · rw [if_pos htw] at h
        obtain rfl := (Except.ok.inj h).symm
        rcases hpos with ⟨p, hp, hw⟩
        exact absurd hw (not_lt.mpr (all_nonpos_of_wsum_nonpos htw p hp))
      · rw [if_neg htw] at h
        obtain rfl := (Except.ok.inj h).symm
        rw [weightSum_map_clamp_scale]
        have hne : wsum (_unspec_phase bs (_spec_phase bs)) ≠ 0 :=
          fun h0 => htw (le_of_eq h0)
        field_simp

theorem C2_combine_buckets_explicit_share_witness :
    (∃ p ∈ [(⟨"a", 1, []⟩ : PersonaSpec)], 0 < p.weight) ∧
    (∃ p ∈ [(⟨"b", 2, []⟩ : PersonaSpec)], 0 < p.weight) ∧
    (∀ p ∈ [(⟨"a", 1, []⟩ : PersonaSpec)],
      ∀ q ∈ [(⟨"b", 2, []⟩ : PersonaSpec)], p.name ≠ q.name) ∧
    ((∃ out, combine_persona_buckets
        [([⟨"a", 1, []⟩], some (3/5)), ([⟨"b", 2, []⟩], none)] = .ok out ∧
      weightSum out = 1 ∧
      filterWeight (fun nm => decide (nm ∈ namesOf [(⟨"a", 1, []⟩ : PersonaSpec)]))
        out = 3/5) ∧
    (∀ bs out, combine_persona_buckets bs = .ok out →
      (∃ p ∈ out, 0 < p.weight) → weightSum out = 1)) := by
  have hA : ∃ p ∈ [(⟨"a", 1, []⟩ : PersonaSpec)], 0 < p.weight :=
    ⟨⟨"a", 1, []⟩, by simp, by norm_num⟩
  have hB : ∃ p ∈ [(⟨"b", 2, []⟩ : PersonaSpec)], 0 < p.weight :=
    ⟨⟨"b", 2, []⟩, by simp, by norm_num⟩
  have hdisj : ∀ p ∈ [(⟨"a", 1, []⟩ : PersonaSpec)],
      ∀ q ∈ [(⟨"b", 2, []⟩ : PersonaSpec)], p.name ≠ q.name := by
    intro p hp q hq
    rw [List.mem_singleton] at hp hq
    subst hp
    subst hq
    decide
  exact ⟨hA, hB, hdisj,
    C2_combine_buckets_explicit_share [⟨"a", 1, []⟩] [⟨"b", 2, []⟩] hA hB hdisj⟩

lemma sum_map_div {K : Type} [DivisionRing K] (l : List K) (c : K) :
    (l.map (fun w => w / c)).sum = l.sum / c := by
  induction l with
  | nil => simp
  | cons x l ih => simp [ih, add_div]

lemma sum_map_mulc (l : List ℚ) (c : ℚ) :
    (l.map (fun w => w * c)).sum = l.sum * c := by
  induction l with
  | nil => simp
  | cons x l ih => simp [ih, add_mul]

lemma alloc_weights_sum (ps : List PersonaSpec) (hne : ps ≠ []) :
    (_alloc_weights ps).sum = 1 := by
  have hn : ps.length ≠ 0 := by simpa [List.length_eq_zero] using hne
  unfold _alloc_weights
  split
  · rw [List.sum_replicate, nsmul_eq_mul]
    have : (ps.length : ℚ) ≠ 0 := Nat.cast_ne_zero.mpr hn
    field_simp
  · rw [sum_map_div]
    rename_i hz
    exact div_self hz

lemma alloc_weights_length (ps : List PersonaSpec) :
    (_alloc_weights ps).length = ps.length := by
  unfold _alloc_weights
  split <;> simp

lemma alloc_raw_sum (ps : List PersonaSpec) (total : Nat) (hne : ps ≠ []) :
    (_alloc_raw ps total).sum = total := by
  unfold _alloc_raw
  rw [sum_map_mulc, alloc_weights_sum ps hne, one_mul]

lemma alloc_raw_length (ps : List PersonaSpec) (total : Nat) :
    (_alloc_raw ps total).length = ps.length := by
  unfold _alloc_raw
  rw [List.length_map, alloc_weights_length]

lemma alloc_base_length (ps : List PersonaSpec) (total : Nat) :
    (_alloc_base ps total).length = ps.length := by
  unfold _alloc_base
  rw [List.length_map, alloc_raw_length]

lemma alloc_base_lower (ps : List PersonaSpec) (total : Nat) :
    ∀ d ∈ _alloc_base ps total, 1 ≤ d := by
  unfold _alloc_base
  intro d hd
  rcases List.mem_map.mp hd with ⟨x, _, rfl⟩
  exact le_max_right _ _

lemma sum_floor_bound : ∀ (l : List ℚ), l ≠ [] →
    l.sum - l.length < (((l.map (fun x => Int.floor x)).sum : ℤ) : ℚ)
  | [], h => absurd rfl h
  | [x], _ => by
    simp only [List.map_cons, List.map_nil, List.sum_cons, List.sum_nil,
      List.length_cons, List.length_nil]
    push_cast
    have := Int.sub_one_lt_floor x
    linarith
  | x :: y :: t, _ => by
    have ih := sum_floor_bound (y :: t) (by simp)
    simp only [List.map_cons, List.sum_cons, List.length_cons] at ih ⊢
    have hx : x - 1 < (Int.floor x : ℚ) := Int.sub_one_lt_floor x
    push_cast at ih ⊢
    linarith

lemma sum_floor_le_sum_clamped (l : List ℚ) :
    (l.map (fun x => Int.floor x)).sum ≤
      (l.map (fun x => max (Int.floor x) 1)).sum := by
  induction l with
  | nil => simp
  | cons x l ih =>
    simp only [List.map_cons, List.sum_cons]
    have := le_max_left (Int.floor x) 1
    omega

lemma alloc_base_sum_lb (ps : List PersonaSpec) (total : Nat) (hne : ps ≠ []) :
    (total : ℤ) - ps.length + 1 ≤ (_alloc_base ps total).sum := by
  have hrawne : _alloc_raw ps total ≠ [] := by
    intro h0
    have := alloc_raw_length ps total
    rw [h0] at this
    exact hne (List.length_eq_zero.mp this.symm)
  have h1 := sum_floor_bound (_alloc_raw ps total) hrawne
  rw [alloc_raw_sum ps total hne, alloc_raw_length ps total] at h1
  have h2 : (total : ℤ) - ps.length <
      ((_alloc_raw ps total).map (fun x => Int.floor x)).sum := by
    exact_mod_cast h1
  have h3 := sum_floor_le_sum_clamped (_alloc_raw ps total)
  unfold _alloc_base
  omega

lemma getD_mem_of_lt (l : List ℤ) (i : Nat) (h : i < l.length) :
    l.getD i 0 ∈ l := by
  induction l generalizing i with
  | nil => simp at h
  | cons x l ih =>
    cases i with
    | zero => simp
    | succ i =>
      simp only [List.getD_cons_succ]
      exact List.mem_cons_of_mem _ (ih i (by simpa using h))

lemma getD_set_ne (l : List ℤ) (i j : Nat) (v d : ℤ) (hij : i ≠ j) :
    (l.set i v).getD j d = l.getD j d := by
  induction l generalizing i j with
  | nil => simp
  | cons x l ih =>
    cases i with
    | zero =>
      cases j with
      | zero => omega
      | succ j => simp
    | succ i =>
      cases j with
      | zero => simp
      | succ j =>
        simp only [List.set_cons_succ, List.getD_cons_succ]
        exact ih i j (by omega)

lemma sum_set_add {l : List ℤ} : ∀ {i : Nat}, i < l.length → ∀ c : ℤ,
    (l.set i (l.getD i 0 + c)).sum = l.sum + c := by
  induction l with
  | nil => intro i hi; simp at hi
  | cons x l ih =>
    intro i hi c
    cases i with
    | zero =>
      simp only [List.getD_cons_zero, List.set_cons_zero, List.sum_cons]
      ring
    | succ i =>
      simp only [List.getD_cons_succ, List.set_cons_succ, List.sum_cons]
      rw [ih (by simpa using hi) c]
      ring

lemma all_one_sum : ∀ (l : List ℤ), (∀ d ∈ l, d = 1) → l.sum = l.length
  | [], _ => rfl
  | x :: l, h => by
    simp only [List.sum_cons, List.length_cons]
    rw [h x (List.mem_cons_self _ _), all_one_sum l
      (fun d hd => h d (List.mem_cons_of_mem _ hd))]
    push_cast
    ring

lemma inc_fold_sum : ∀ (idxs : List Nat) (base : List ℤ),
    (∀ i ∈ idxs, i < base.length) →
    (idxs.foldl (fun acc i => acc.set i (acc.getD i 0 + 1)) base).sum =
      base.sum + idxs.length
  | [], base, _ => by simp
  | i :: idxs, base, h => by
    rw [List.foldl_cons]
    rw [inc_fold_sum idxs _ (fun j hj => by
      rw [List.length_set]
      exact h j (List.mem_cons_of_mem _ hj))]
    rw [sum_set_add (h i (List.mem_cons_self _ _)) 1]
    simp only [List.length_cons]
    push_cast
    ring

lemma inc_fold_length : ∀ (idxs : List Nat) (base : List ℤ),
    (idxs.foldl (fun acc i => acc.set i (acc.getD i 0 + 1)) base).length =
      base.length
  | [], _ => rfl
  | i :: idxs, base => by
    rw [List.foldl_cons, inc_fold_length idxs _, List.length_set]

lemma inc_fold_lower : ∀ (idxs : List Nat) (base : List ℤ),
    (∀ i ∈ idxs, i < base.length) → (∀ d ∈ base, 1 ≤ d) →
    ∀ d ∈ idxs.foldl (fun acc i => acc.set i (acc.getD i 0 + 1)) base, 1 ≤ d
  | [], _, _, hb => hb
  | i :: idxs, base, h, hb => by
    rw [List.foldl_cons]
    refine inc_fold_lower idxs _ (fun j hj => by
      rw [List.length_set]
      exact h j (List.mem_cons_of_mem _ hj)) ?_
    intro d hd
    rcases List.mem_or_eq_of_mem_set hd with hd | rfl
    · exact hb d hd
    · have hmem := getD_mem_of_lt base i (h i (List.mem_cons_self _ _))
      have := hb _ hmem
      omega

lemma removeLoop_length (base : List ℤ) (order : List Nat) (r : ℤ) (idx : Nat) :
    (removeLoop base order r idx).length = base.length := by
  induction base, order, r, idx using removeLoop.induct with
  | case1 base order r idx h cand hgt ih =>
    rw [removeLoop, dif_pos h, if_pos hgt, ih, List.length_set]
  | case2 base order r idx h cand hle ih =>
    rw [removeLoop, dif_pos h, if_neg hle]
    exact ih
  | case3 base order r idx h =>
    rw [removeLoop, dif_neg h]

lemma removeLoop_lower (base : List ℤ) (order : List Nat) (r : ℤ) (idx : Nat) :
    (∀ d ∈ base, 1 ≤ d) → ∀ d ∈ removeLoop base order r idx, 1 ≤ d := by
  induction base, order, r, idx using removeLoop.induct with
  | case1 base order r idx h cand hgt ih =>
    intro hb
    rw [removeLoop, dif_pos h, if_pos hgt]
    refine ih ?_
    intro d hd
    rcases List.mem_or_eq_of_mem_set hd with hd | rfl
    · exact hb d hd
    · omega
  | case2 base order r idx h cand hle ih =>
    intro hb
    rw [removeLoop, dif_pos h, if_neg hle]
    exact ih hb
  | case3 base order r idx h =>
    intro hb
    rw [removeLoop, dif_neg h]
    exact hb

lemma removeLoop_sum (T : ℤ) (base : List ℤ) (order : List Nat) (r : ℤ)
    (idx : Nat) :
    (∀ d ∈ base, 1 ≤ d) →
    order.Nodup →
    (∀ i, i ∈ order ↔ i < base.length) →
    r ≤ 0 →
    base.sum + r = T →
    (base.length : ℤ) ≤ T →
    (∀ j (hj : j < order.length), j < idx →
      base.getD (order.get ⟨j, hj⟩) 0 = 1) →
    (removeLoop base order r idx).sum = T := by
  induction base, order, r, idx using removeLoop.induct with
  | case1 base order r idx h cand hgt ih =>
    intro hb hnd hmem hr hsum hT hfroz
    rw [removeLoop, dif_pos h, if_pos hgt]
    have hcand_lt : cand < base.length :=
      (hmem cand).mp (order.get_mem _ _)
    have hset : (base.set cand (base.getD cand 0 - 1)).sum = base.sum - 1 := by
      have := sum_set_add hcand_lt (-1)
      simpa [sub_eq_add_neg] using this
    refine ih ?_ hnd ?_ (by omega) (by rw [hset]; omega) ?_ ?_
    · intro d hd
      rcases List.mem_or_eq_of_mem_set hd with hd | rfl
      · exact hb d hd
      · omega
    · intro i
      rw [List.length_set]
      exact hmem i
    · rw [List.length_set]
      exact hT
    · intro j hj hjidx
      have hne2 : order.get ⟨j, hj⟩ ≠ cand := by
        intro heq
        have hji : (⟨j, hj⟩ : Fin order.length) = ⟨idx, h.2⟩ :=
          (List.Nodup.get_inj_iff hnd).mp heq
        have : j = idx := congrArg Fin.val hji
        omega
      rw [getD_set_ne _ _ _ _ _ (fun e => hne2 e.symm)]
      exact hfroz j hj hjidx
  | case2 base order r idx h cand hle ih =>
    intro hb hnd hmem hr hsum hT hfroz
    rw [removeLoop, dif_pos h, if_neg hle]
    refine ih hb hnd hmem hr hsum hT ?_
    intro j hj hjidx
    rcases Nat.lt_succ_iff_lt_or_eq.mp hjidx with hjidx | rfl
    · exact hfroz j hj hjidx
    · have hcand_lt : cand < base.length :=
        (hmem cand).mp (order.get_mem _ _)
      have hgeq : order.get ⟨j, hj⟩ = cand := rfl
      rw [hgeq]
      have h1 := hb _ (getD_mem_of_lt base cand hcand_lt)
      omega
  | case3 base order r idx h =>
    intro hb hnd hmem hr hsum hT hfroz
    rw [removeLoop, dif_neg h]
    rcases not_and_or.mp h with hr0 | hidx
    · have : r = 0 := le_antisymm hr (not_lt.mp hr0)
      omega
    · have hidx2 : order.length ≤ idx := not_lt.mp hidx
      have hall : ∀ d ∈ base, d = 1 := by
        intro d hd
        rcases List.mem_iff_get.mp hd with ⟨⟨i, hi⟩, rfl⟩
        have hiord : i ∈ order := (hmem i).mpr hi
        rcases List.mem_iff_get.mp hiord with ⟨⟨j, hj⟩, hji⟩
        have h1 := hfroz j hj (lt_of_lt_of_le hj hidx2)
        rw [hji] at h1
        rw [← h1]
        rw [List.getD_eq_getElem _ _ hi]
        rfl
      have hsum1 := all_one_sum base hall
      omega

lemma allocate_draws_total (ps : List PersonaSpec) (opts : SimulationOptions)
    (k : Nat) (hk : opts.total_n = some k) (hk0 : k ≠ 0) (hne : ps ≠ []) :
    _allocate_draws ps opts =
      if 0 < (k : ℤ) - (_alloc_base ps k).sum then
        ((List.insertionSort
            (fun a b => (_alloc_fractional ps k).getD b 0 ≤
              (_alloc_fractional ps k).getD a 0)
            (List.range ps.length)).take
          ((k : ℤ) - (_alloc_base ps k).sum).toNat).foldl
          (fun acc i => acc.set i (acc.getD i 0 + 1)) (_alloc_base ps k)
      else if (k : ℤ) - (_alloc_base ps k).sum < 0 then
        removeLoop (_alloc_base ps k)
          (List.insertionSort
            (fun a b => (_alloc_fractional ps k).getD a 0 ≤
              (_alloc_fractional ps k).getD b 0)
            (List.range ps.length))
          ((k : ℤ) - (_alloc_base ps k).sum) 0
      else _alloc_base ps k := by
  unfold _allocate_draws
  rw [if_neg hne, hk]
  simp [hk0]

/-- C4 (amended): for `_allocate_draws` with an explicit `total_n = k ≥ 1`
and at least one persona, the result has one entry per persona, every
persona receives at least one draw, and when `k` is at least the number of
personas the draws sum to exactly `k`. (The original claim fails only for
the empty persona list, see the counterexample.) -/
theorem C4_allocate_draws_min_one_and_sum (ps : List PersonaSpec) (k : Nat)
    (opts : SimulationOptions) (hk : opts.total_n = some k) (hkpos : 0 < k)
    (hne : ps ≠ []) :
    (_allocate_draws ps opts).length = ps.length ∧
    (∀ d ∈ _allocate_draws ps opts, 1 ≤ d) ∧
    (ps.length ≤ k → (_allocate_draws ps opts).sum = (k : ℤ)) := by
  have hk0 : k ≠ 0 := Nat.pos_iff_ne_zero.mp hkpos
  rw [allocate_draws_total ps opts k hk hk0 hne]
  have hlb := alloc_base_sum_lb ps k hne
  have hnlen : 0 < ps.length := List.length_pos.mpr hne
  by_cases hpos : 0 < (k : ℤ) - (_alloc_base ps k).sum
  · rw [if_pos hpos]
    have hperm := List.perm_insertionSort
      (fun a b => (_alloc_fractional ps k).getD b 0 ≤
        (_alloc_fractional ps k).getD a 0)
      (List.range ps.length)
    have hordlen : (List.insertionSort
        (fun a b => (_alloc_fractional ps k).getD b 0 ≤
          (_alloc_fractional ps k).getD a 0)
        (List.range ps.length)).length = ps.length := by
      rw [hperm.length_eq, List.length_range]
    have htake_bound : ∀ i ∈ (List.insertionSort
        (fun a b => (_alloc_fractional ps k).getD b 0 ≤
          (_alloc_fractional ps k).getD a 0)
        (List.range ps.length)).take
          ((k : ℤ) - (_alloc_base ps k).sum).toNat,
        i < (_alloc_base ps k).length := by
      intro i hi
      have := hperm.mem_iff.mp (List.mem_of_mem_take hi)
      rw [List.mem_range] at this
      rw [alloc_base_length]
      exact this
    refine ⟨?_, inc_fold_lower _ _ htake_bound (alloc_base_lower ps k), ?_⟩
    · rw [inc_fold_length, alloc_base_length]
    · intro _
      rw [inc_fold_sum _ _ htake_bound]
      rw [List.length_take, hordlen]
      have hr_le : ((k : ℤ) - (_alloc_base ps k).sum).toNat ≤ ps.length - 1 := by
        omega
      have hmin : min ((k : ℤ) - (_alloc_base ps k).sum).toNat ps.length =
          ((k : ℤ) - (_alloc_base ps k).sum).toNat := by
        omega
      rw [hmin]
      omega
  · rw [if_neg hpos]
    by_cases hneg : (k : ℤ) - (_alloc_base ps k).sum < 0
    · rw [if_pos hneg]
      have hperm := List.perm_insertionSort
        (fun a b => (_alloc_fractional ps k).getD a 0 ≤
          (_alloc_fractional ps k).getD b 0)
        (List.range ps.length)
      have hnd : (List.insertionSort
          (fun a b => (_alloc_fractional ps k).getD a 0 ≤
            (_alloc_fractional ps k).getD b 0)
          (List.range ps.length)).Nodup :=
        hperm.nodup_iff.mpr (List.nodup_range ps.length)
      have hmem : ∀ i, i ∈ List.insertionSort
          (fun a b => (_alloc_fractional ps k).getD a 0 ≤
            (_alloc_fractional ps k).getD b 0)
          (List.range ps.length) ↔ i < (_alloc_base ps k).length := by
        intro i
        rw [hperm.mem_iff, List.mem_range, alloc_base_length]
      refine ⟨?_, removeLoop_lower _ _ _ _ (alloc_base_lower ps k), ?_⟩
      · rw [removeLoop_length, alloc_base_length]
      · intro hkn
        refine removeLoop_sum (k : ℤ) _ _ _ _ (alloc_base_lower ps k) hnd hmem
          (by omega) (by ring) ?_ ?_
        · rw [alloc_base_length]
          exact_mod_cast hkn
        · intro j hj hj0
          omega
    · rw [if_neg hneg]
      refine ⟨alloc_base_length ps k, alloc_base_lower ps k, fun _ => ?_⟩
      omega

/-- C4 (counterexample): as stated, the claim fails for the empty persona
list — `total_n = 10` is at least the number of personas (zero), but
`_allocate_draws` returns `[]`, whose draws sum to 0, not 10. -/
theorem C4_allocate_draws_cex :
    ([] : List PersonaSpec).length ≤ 10 ∧
    _allocate_draws [] ⟨1, some 10, false⟩ = [] ∧
    (_allocate_draws [] ⟨1, some 10, false⟩).sum ≠ 10 := by
  refine ⟨by norm_num, rfl, ?_⟩
  have h : _allocate_draws [] ⟨1, some 10, false⟩ = [] := rfl
  rw [h]
  decide

theorem C4_allocate_draws_min_one_and_sum_witness :
    (⟨7, some 10, false⟩ : SimulationOptions).total_n = some 10 ∧
    0 < 10 ∧
    ([(⟨"x", 1, []⟩ : PersonaSpec), ⟨"y", 1, []⟩, ⟨"z", 1, []⟩] ≠ []) ∧
    ((_allocate_draws [⟨"x", 1, []⟩, ⟨"y", 1, []⟩, ⟨"z", 1, []⟩]
        ⟨7, some 10, false⟩).length =
      [(⟨"x", 1, []⟩ : PersonaSpec), ⟨"y", 1, []⟩, ⟨"z", 1, []⟩].length ∧
    (∀ d ∈ _allocate_draws [⟨"x", 1, []⟩, ⟨"y", 1, []⟩, ⟨"z", 1, []⟩]
        ⟨7, some 10, false⟩, 1 ≤ d) ∧
    ([(⟨"x", 1, []⟩ : PersonaSpec), ⟨"y", 1, []⟩, ⟨"z", 1, []⟩].length ≤ 10 →
      (_allocate_draws [⟨"x", 1, []⟩, ⟨"y", 1, []⟩, ⟨"z", 1, []⟩]
        ⟨7, some 10, false⟩).sum = (10 : ℤ))) :=
  ⟨rfl, by norm_num, by simp,
   C4_allocate_draws_min_one_and_sum
     [⟨"x", 1, []⟩, ⟨"y", 1, []⟩, ⟨"z", 1, []⟩] 10 ⟨7, some 10, false⟩
     rfl (by norm_num) (by simp)⟩

lemma sum_map_const_mul {α : Type} (l : List α) (c : ℝ) :
    (l.map (fun _ => c)).sum = l.length * c := by
  induction l with
  | nil => simp
  | cons x l ih =>
    simp only [List.map_cons, List.sum_cons, List.length_cons, ih]
    push_cast
    ring

lemma normalize_list_pos {l : List ℝ} (hpos : ∀ x ∈ l, 0 < x) (hne : l ≠ []) :
    (∀ x ∈ l.map (fun x => x / l.sum), 0 < x) ∧
    (l.map (fun x => x / l.sum)).sum = 1 := by
  have hsum : 0 < l.sum := List.sum_pos l hpos hne
  constructor
  · intro x hx
    rcases List.mem_map.mp hx with ⟨y, hy, rfl⟩
    exact div_pos (hpos y hy) hsum
  · rw [sum_map_div, div_self hsum.ne']

lemma cosine_ok_of_ne (v : List ℝ) (M : List (List ℝ)) (hM : M ≠ []) :
    ∃ s, _cosine_similarity v M = .ok s ∧ s.length = M.length := by
  unfold _cosine_similarity
  by_cases h0 : l2norm v = 0
  · rw [if_pos h0]
    exact ⟨_, rfl, by rw [List.length_map]⟩
  · rw [if_neg h0, if_neg hM]
    exact ⟨_, rfl, by rw [List.length_map]⟩

lemma score_set_eq_ok (v : List ℝ) (M : List (List ℝ)) (ε : ℝ) (s : List ℝ)
    (hs : _cosine_similarity v M = .ok s) :
    score_set v M ε = .ok ((s.map (fun t => max t 0 + ε)).map
      (fun t => t / (s.map (fun t => max t 0 + ε)).sum)) := by
  simp only [score_set]
  rw [hs]

lemma score_set_ok_props (v : List ℝ) (M : List (List ℝ)) (ε : ℝ) (hε : 0 < ε)
    (hM : M ≠ []) :
    ∃ p, score_set v M ε = .ok p ∧ (∀ x ∈ p, 0 < x) ∧ p.sum = 1 ∧
      p.length = M.length := by
  obtain ⟨s, hs, hslen⟩ := cosine_ok_of_ne v M hM
  have hsims_pos : ∀ x ∈ s.map (fun t => max t 0 + ε), 0 < x := by
    intro x hx
    rcases List.mem_map.mp hx with ⟨t, _, rfl⟩
    have : (0 : ℝ) ≤ max t 0 := le_max_right _ _
    linarith
  have hsims_ne : s.map (fun t => max t 0 + ε) ≠ [] := by
    intro h0
    have := congrArg List.length h0
    rw [List.length_map, hslen, List.length_nil] at this
    exact hM (List.length_eq_zero.mp this)
  have hn := normalize_list_pos hsims_pos hsims_ne
  refine ⟨_, score_set_eq_ok v M ε s hs, hn.1, hn.2, ?_⟩
  rw [List.length_map, List.length_map, hslen]

lemma score_sets_ok (v : List ℝ) (ε : ℝ) :
    ∀ (Ms : List (List (List ℝ))),
    (∀ M ∈ Ms, ∃ p, score_set v M ε = .ok p) →
    ∃ ps, score_sets v ε Ms = .ok ps ∧ ps.length = Ms.length ∧
      ∀ p ∈ ps, ∃ M ∈ Ms, score_set v M ε = .ok p
  | [], _ => ⟨[], rfl, rfl, by simp⟩
  | M :: Ms, h => by
    obtain ⟨p, hp⟩ := h M (List.mem_cons_self _ _)
    obtain ⟨ps, hps, hlen2, hmem⟩ := score_sets_ok v ε Ms
      (fun M2 hM2 => h M2 (List.mem_cons_of_mem _ hM2))
    refine ⟨p :: ps, ?_, by simp [hlen2], ?_⟩
    · simp only [score_sets]
      rw [hp, hps]
    · intro q hq
      rcases List.mem_cons.mp hq with rfl | hq2
      · exact ⟨M, List.mem_cons_self _ _, hp⟩
      · obtain ⟨M2, hM2, hfq⟩ := hmem q hq2
        exact ⟨M2, List.mem_cons_of_mem _ hM2, hfq⟩

lemma colMean_length (rows : List (List ℝ)) (k : Nat) :
    (colMean rows k).length = k := by
  unfold colMean
  rw [List.length_map, List.length_range]

lemma colMean_pos {rows : List (List ℝ)} {k : Nat} (hne : rows ≠ [])
    (hlen : ∀ r ∈ rows, r.length = k) (hpos : ∀ r ∈ rows, ∀ x ∈ r, 0 < x) :
    ∀ x ∈ colMean rows k, 0 < x := by
  intro x hx
  unfold colMean at hx
  rcases List.mem_map.mp hx with ⟨j, hj, rfl⟩
  rw [List.mem_range] at hj
  apply div_pos
  · apply List.sum_pos
    · intro y hy
      rcases List.mem_map.mp hy with ⟨r, hr, rfl⟩
      have hjr : j < r.length := by
        rw [hlen r hr]
        exact hj
      rw [List.getD_eq_getElem r 0 hjr]
      exact hpos r hr _ (List.getElem_mem hjr)
    · simp [hne]
  · exact_mod_cast List.length_pos.mpr hne

lemma cosine_zero_norm (v : List ℝ) (M : List (List ℝ))
    (h0 : l2norm v = 0) :
    _cosine_similarity v M = .ok (M.map (fun _ => 0)) := by
  unfold _cosine_similarity
  rw [if_pos h0]

lemma score_set_zero_norm_uniform (v : List ℝ) (M : List (List ℝ)) (ε : ℝ)
    (hε : 0 < ε) (h0 : l2norm v = 0) :
    score_set v M ε = .ok (M.map (fun _ => 1 / (M.length : ℝ))) := by
  rw [score_set_eq_ok v M ε _ (cosine_zero_norm v M h0)]
  refine congrArg Except.ok ?_
  have hsims : (M.map (fun _ => (0 : ℝ))).map (fun s => max s 0 + ε) =
      M.map (fun _ => ε) := by
    rw [List.map_map]
    refine congrArg (fun f => List.map f M) (funext fun r => ?_)
    show max (0 : ℝ) 0 + ε = ε
    simp
  rw [hsims, sum_map_const_mul, List.map_map]
  refine congrArg (fun f => List.map f M) (funext fun r => ?_)
  show ε / ((M.length : ℝ) * ε) = 1 / (M.length : ℝ)
  rw [div_mul_eq_div_div_swap, div_self hε.ne']

/-- Concrete anchor bank that `load_anchor_bank` accepts (one anchor set,
consistent — empty — key sets) but whose anchors mapping is empty, so the
rater's rating scale is empty and its anchor matrix is the 1-D empty
`np.empty((0,))`. -/
def bankEmptyAnchors : AnchorBankL :=
  ⟨"1", "purchase_intent", "en-US", [⟨"s1", []⟩]⟩

/-- C1 (counterexample): the claim fails as stated for a loadable bank whose
anchor set has an empty anchors mapping — for a text embedding with nonzero
norm `score_text` raises `AxisError` (from `np.linalg.norm(mat, axis=1)` on
the 1-D empty anchor matrix) instead of returning a vector, and for a
zero-norm embedding it returns the empty vector, whose entries sum to 0,
not 1. -/
theorem C1_score_text_pmf_cex :
    score_text (fun _ => [1]) bankEmptyAnchors (1 / 1000000) "some text" =
      .error "numpy.AxisError: axis 1 is out of bounds for array of dimension 1" ∧
    score_text (fun _ => [0]) bankEmptyAnchors (1 / 1000000) "some text" =
      .ok [] ∧
    ([] : List ℝ).sum ≠ 1 := by
  have h1 : l2norm [(1 : ℝ)] = 1 := by
    simp [l2norm]
  have h0 : l2norm [(0 : ℝ)] = 0 := by
    simp [l2norm]
  have hemb1 : _embed_anchors (fun _ => [(1 : ℝ)]) bankEmptyAnchors = [[]] := rfl
  have hemb0 : _embed_anchors (fun _ => [(0 : ℝ)]) bankEmptyAnchors = [[]] := rfl
  refine ⟨?_, ?_, by norm_num⟩
  · have hcos : _cosine_similarity [(1 : ℝ)] [] =
        .error "numpy.AxisError: axis 1 is out of bounds for array of dimension 1" := by
      unfold _cosine_similarity
      rw [if_neg (by rw [h1]; norm_num), if_pos rfl]
    have hset : score_set [(1 : ℝ)] [] (1 / 1000000) =
        .error "numpy.AxisError: axis 1 is out of bounds for array of dimension 1" := by
      simp only [score_set]
      rw [hcos]
    have hsets2 : score_sets [(1 : ℝ)] (1 / 1000000) [[]] =
        .error "numpy.AxisError: axis 1 is out of bounds for array of dimension 1" := by
      simp only [score_sets]
      rw [hset]
    show score_text (fun _ => [1]) bankEmptyAnchors (1 / 1000000) "some text" = _
    simp only [score_text, hemb1]
    rw [hsets2]
  · have hset0 : score_set [(0 : ℝ)] [] (1 / 1000000) = .ok [] := by
      rw [score_set_eq_ok [(0 : ℝ)] [] (1 / 1000000) _
        (cosine_zero_norm [(0 : ℝ)] [] h0)]
      rfl
    have hsets0 : score_sets [(0 : ℝ)] (1 / 1000000) [[]] = .ok [[]] := by
      simp only [score_sets]
      rw [hset0]
    have hrat : (ssrRatings bankEmptyAnchors).length = 0 := rfl
    show score_text (fun _ => [0]) bankEmptyAnchors (1 / 1000000) "some text" = _
    simp only [score_text, hemb0]
    rw [hsets0]
    simp [colMean, hrat]

/-- C1 (amended): for every anchor bank satisfying the load-time invariants
(at least one anchor set, all sets carrying the same number of anchors as
there are ratings) *and whose rating scale is non-empty*, and for every
embedding provider and input text, `score_text` returns a pmf: same length
as `ratings()`, all entries strictly positive, summing to exactly 1 —
including when the text embeds to a zero-norm vector, in which case every
per-anchor-set similarity vector is all zeros and epsilon-smoothing makes
that set's pmf uniform. (On a loadable bank with empty anchors mappings the
code instead raises `AxisError` or returns an empty vector, see the
counterexample.) -/
theorem C1_score_text_pmf (embed : String → List ℝ) (bank : AnchorBankL)
    (text : String) (ε : ℝ) (hε : 0 < ε)
    (hsets : bank.anchor_sets ≠ [])
    (hlen : ∀ s ∈ bank.anchor_sets, s.anchors.length = (ssrRatings bank).length)
    (hk : 0 < (ssrRatings bank).length) :
    (∃ pmf, score_text embed bank ε text = .ok pmf ∧
      pmf.length = (ssrRatings bank).length ∧
      (∀ x ∈ pmf, 0 < x) ∧ pmf.sum = 1) ∧
    (l2norm (embed text) = 0 →
      ∀ M ∈ _embed_anchors embed bank,
        _cosine_similarity (embed text) M = .ok (M.map (fun _ => 0)) ∧
        score_set (embed text) M ε = .ok (M.map (fun _ => 1 / (M.length : ℝ)))) := by
  have hM_len : ∀ M ∈ _embed_anchors embed bank,
      M.length = (ssrRatings bank).length := by
    intro M hM
    unfold _embed_anchors at hM
    rcases List.mem_map.mp hM with ⟨aset, haset, rfl⟩
    rw [List.length_map]
    unfold sorted_items
    rw [(List.perm_insertionSort _ _).length_eq]
    exact hlen aset haset
  have hMne : ∀ M ∈ _embed_anchors embed bank, M ≠ [] := by
    intro M hM h0
    rw [h0] at hM
    have h00 := hM_len [] hM
    rw [List.length_nil] at h00
    omega
  obtain ⟨ps, hps, hpslen, hpsmem⟩ := score_sets_ok (embed text) ε
    (_embed_anchors embed bank)
    (fun M hM =>
      (score_set_ok_props (embed text) M ε hε (hMne M hM)).imp
        (fun p hp => hp.1))
  have hps_ne : ps ≠ [] := by
    intro h0
    rw [h0, List.length_nil] at hpslen
    unfold _embed_anchors at hpslen
    rw [List.length_map] at hpslen
    exact hsets (List.length_eq_zero.mp hpslen.symm)
  have hps_props : ∀ p ∈ ps,
      (∀ x ∈ p, 0 < x) ∧ p.length = (ssrRatings bank).length := by
    intro p hp
    obtain ⟨M, hM, hfp⟩ := hpsmem p hp
    obtain ⟨p2, hp2, hpos, _, hplen⟩ :=
      score_set_ok_props (embed text) M ε hε (hMne M hM)
    have hpp : p = p2 := by
      rw [hfp] at hp2
      exact Except.ok.inj hp2
    subst hpp
    exact ⟨hpos, by rw [hplen]; exact hM_len M hM⟩
  have hstackpos := colMean_pos hps_ne (fun r hr => (hps_props r hr).2)
    (fun r hr => (hps_props r hr).1)
  have hstackne : colMean ps (ssrRatings bank).length ≠ [] := by
    intro h0
    have := congrArg List.length h0
    rw [colMean_length, List.length_nil] at this
    omega
  have hnorm := normalize_list_pos hstackpos hstackne
  constructor
  · refine ⟨_, ?_, ?_, hnorm.1, hnorm.2⟩
    · simp only [score_text]
      rw [hps]
    · rw [List.length_map, colMean_length]
  · intro h0 M hM
    exact ⟨cosine_zero_norm (embed text) M h0,
      score_set_zero_norm_uniform (embed text) M ε hε h0⟩

theorem C1_score_text_pmf_witness :
    (0 : ℝ) < 1 / 1000000 ∧
    ((⟨"1", "purchase_intent", "en-US", [⟨"s1", [(3, "would buy")]⟩]⟩ :
        AnchorBankL).anchor_sets ≠ []) ∧
    (∀ s ∈ (⟨"1", "purchase_intent", "en-US", [⟨"s1", [(3, "would buy")]⟩]⟩ :
        AnchorBankL).anchor_sets, s.anchors.length =
      (ssrRatings ⟨"1", "purchase_intent", "en-US",
        [⟨"s1", [(3, "would buy")]⟩]⟩).length) ∧
    0 < (ssrRatings ⟨"1", "purchase_intent", "en-US",
      [⟨"s1", [(3, "would buy")]⟩]⟩).length ∧
    ((∃ pmf, score_text (fun _ => [0]) ⟨"1", "purchase_intent", "en-US",
        [⟨"s1", [(3, "would buy")]⟩]⟩ (1 / 1000000) "anything" = .ok pmf ∧
      pmf.length = (ssrRatings ⟨"1", "purchase_intent", "en-US",
        [⟨"s1", [(3, "would buy")]⟩]⟩).length ∧
      (∀ x ∈ pmf, 0 < x) ∧ pmf.sum = 1) ∧
    (l2norm ((fun (_ : String) => ([0] : List ℝ)) "anything") = 0 →
      ∀ M ∈ _embed_anchors (fun _ => [0]) ⟨"1", "purchase_intent", "en-US",
        [⟨"s1", [(3, "would buy")]⟩]⟩,
        _cosine_similarity ((fun (_ : String) => ([0] : List ℝ)) "anything") M =
          .ok (M.map (fun _ => 0)) ∧
        score_set ((fun (_ : String) => ([0] : List ℝ)) "anything") M
            (1 / 1000000) = .ok (M.map (fun _ => 1 / (M.length : ℝ))))) :=
  ⟨by norm_num, by simp, fun s hs => by
      rw [List.mem_singleton] at hs
      subst hs
      rfl,
   by norm_num [ssrRatings],
   C1_score_text_pmf (fun _ => [0])
     ⟨"1", "purchase_intent", "en-US", [⟨"s1", [(3, "would buy")]⟩]⟩
     "anything" (1 / 1000000) (by norm_num) (by simp)
     (fun s hs => by
       rw [List.mem_singleton] at hs
       subst hs
       rfl)
     (by norm_num [ssrRatings])⟩
